import Mathlib

/-!
Verification development for the camouflage multi-format parsing and
position-resolution engine.

The TypeScript sources (five format parsers, the shared base parser and the
glob-style pattern matcher) are shallowly embedded below.  Text is modelled as
`List Char`; JavaScript string primitives (`slice`, `substring`, `indexOf`,
`trim`, `split`, `search`) are modelled by executable Lean functions with the
same semantics on the fragment the code uses.  The regular expressions in the
sources are deterministic on their input language (every quantified class is
disjoint from the character that follows it), so each one is embedded as a
direct maximal-munch matcher; comments at each definition name the regex it
embeds.  JavaScript `\s` is modelled by its ASCII subset and case folding by
ASCII `toLower`; both are exact for the inputs exercised here.
-/

namespace Camouflage

/-- Str abbreviates the character-list representation of JavaScript strings. -/
abbrev Str := List Char

/-- jsWs models the JavaScript regex class backslash-s (ASCII subset). -/
def jsWs (c : Char) : Bool :=
  c == ' ' || c == '\t' || c == '\n' || c == '\r' || c == Char.ofNat 11 || c == Char.ofNat 12

/-- jsLineTerm models the JavaScript line-terminator set (ASCII subset). -/
def jsLineTerm (c : Char) : Bool :=
  c == '\n' || c == '\r'

/-- trimStr models JavaScript String.prototype.trim. -/
def trimStr (s : Str) : Str :=
  ((s.dropWhile jsWs).reverse.dropWhile jsWs).reverse

/-- trimStartLen gives the number of leading whitespace characters, the
quantity JavaScript code computes as length minus trimStart length. -/
def trimStartLen (s : Str) : Nat :=
  (s.takeWhile jsWs).length

/-- splitNl models JavaScript split on a newline: the result is always
nonempty and an empty input yields one empty line. -/
def splitNl : Str → List Str
  | [] => [[]]
  | c :: rest =>
    if c = '\n' then [] :: splitNl rest
    else
      match splitNl rest with
      | [] => [[c]]
      | l :: ls => (c :: l) :: ls

/-- clampToLen clamps a JavaScript fractional-free index argument into
[0, length], as indexOf and substring do. -/
def clampToLen (x : Int) (n : Nat) : Nat :=
  (max 0 (min x (n : Int))).toNat

/-- jsSubstring models String.prototype.substring (clamp then swap). -/
def jsSubstring (s : Str) (a b : Int) : Str :=
  let a' := clampToLen a s.length
  let b' := clampToLen b s.length
  (s.drop (min a' b')).take (max a' b' - min a' b')

/-- jsSlice models String.prototype.slice (negative indices count from the
end; empty result when the normalized start is not before the end). -/
def jsSlice (s : Str) (a b : Int) : Str :=
  let n : Int := s.length
  let a' := (if a < 0 then max (n + a) 0 else min a n).toNat
  let b' := (if b < 0 then max (n + b) 0 else min b n).toNat
  (s.drop a').take (b' - a')

/-- jsIndexOfCharFromNat searches for a character from a natural start
offset, returning the JavaScript convention of -1 when absent. -/
def jsIndexOfCharFromNat (s : Str) (c : Char) (start : Nat) : Int :=
  match (s.drop start).findIdx? (fun x => x == c) with
  | some i => (start + i : Nat)
  | none => -1

/-- jsIndexOfChar models String.prototype.indexOf for a single character. -/
def jsIndexOfChar (s : Str) (c : Char) : Int :=
  jsIndexOfCharFromNat s c 0

/-- jsIndexOfCharFrom models indexOf with a (possibly negative) start. -/
def jsIndexOfCharFrom (s : Str) (c : Char) (start : Int) : Int :=
  jsIndexOfCharFromNat s c (clampToLen start s.length)

/-- subIdxAux finds the first offset at which the needle is a prefix of the
remaining haystack. -/
def subIdxAux (needle : Str) : Str → Nat → Option Nat
  | s, i =>
    if needle.isPrefixOf s then some i
    else
      match s with
      | [] => none
      | _ :: rest => subIdxAux needle rest (i + 1)

/-- jsIndexOfSubFromNat models String.prototype.indexOf for a substring with
a natural start offset (empty needle found at the clamped start, as in JS). -/
def jsIndexOfSubFromNat (s needle : Str) (start : Nat) : Int :=
  match subIdxAux needle (s.drop start) 0 with
  | some i => (start + i : Nat)
  | none => -1

/-- jsIndexOfSub models String.prototype.indexOf for a substring. -/
def jsIndexOfSub (s needle : Str) : Int :=
  jsIndexOfSubFromNat s needle 0

/-- jsIndexOfSubFrom models substring indexOf with an Int start offset. -/
def jsIndexOfSubFrom (s needle : Str) (start : Int) : Int :=
  jsIndexOfSubFromNat s needle (clampToLen start s.length)

/-- jsSearchSep models line.search over the class holding the two
separators, equal sign and colon, used by the properties parser. -/
def jsSearchSep (s : Str) : Int :=
  match s.findIdx? (fun c => c == '=' || c == ':') with
  | some i => i
  | none => -1

/-- lowerStr models case folding under the JavaScript i flag (ASCII). -/
def lowerStr (s : Str) : Str :=
  s.map Char.toLower

/-- startsWithChar models String.prototype.startsWith for one character. -/
def startsWithChar (s : Str) (c : Char) : Bool :=
  s.head? == some c

/-- endsWithChar models String.prototype.endsWith for one character. -/
def endsWithChar (s : Str) (c : Char) : Bool :=
  s.getLast? == some c

/-- endsWithStr models String.prototype.endsWith. -/
def endsWithStr (s suffix : Str) : Bool :=
  suffix.isSuffixOf s

/-- splitOnChar models String.prototype.split on a one-character separator;
the result list is always nonempty. -/
def splitOnChar (sep : Char) : Str → List Str
  | [] => [[]]
  | c :: rest =>
    if c = sep then [] :: splitOnChar sep rest
    else
      match splitOnChar sep rest with
      | [] => [[c]]
      | l :: ls => (c :: l) :: ls

/-- segments counts the dot-separated segments of a key, exactly the length
of the JavaScript split on a dot. -/
def segments (k : Str) : Nat :=
  (splitOnChar '.' k).length

theorem splitOnChar_ne_nil (sep : Char) (s : Str) : splitOnChar sep s ≠ [] := by
  cases s with
  | nil => simp [splitOnChar]
  | cons c rest =>
    simp only [splitOnChar]
    split
    · simp
    · cases h : splitOnChar sep rest <;> simp

theorem segments_pos (k : Str) : 1 ≤ segments k := by
  have h := splitOnChar_ne_nil '.' k
  unfold segments
  cases hs : splitOnChar '.' k with
  | nil => exact absurd hs h
  | cons a l => simp

theorem length_splitOnChar_cons_ne (sep c : Char) (hc : ¬c = sep) (rest : Str) :
    (splitOnChar sep (c :: rest)).length = (splitOnChar sep rest).length := by
  simp only [splitOnChar, if_neg hc]
  cases hs : splitOnChar sep rest with
  | nil => exact absurd hs (splitOnChar_ne_nil sep rest)
  | cons l ls => simp

theorem splitOnChar_nil (sep : Char) : splitOnChar sep [] = [[]] := rfl

theorem splitOnChar_cons_self (sep : Char) (rest : Str) :
    splitOnChar sep (sep :: rest) = [] :: splitOnChar sep rest := by
  simp [splitOnChar]

theorem segments_append_dot (a b : Str) :
    segments (a ++ '.' :: b) = segments a + segments b := by
  induction a with
  | nil =>
    unfold segments
    rw [List.nil_append, splitOnChar_cons_self, splitOnChar_nil]
    simp only [List.length_cons, List.length_nil]
    omega
  | cons c rest ih =>
    by_cases hc : c = '.'
    · subst hc
      unfold segments at ih ⊢
      rw [List.cons_append, splitOnChar_cons_self, splitOnChar_cons_self]
      simp only [List.length_cons]
      omega
    · unfold segments at ih ⊢
      rw [List.cons_append, length_splitOnChar_cons_ne '.' c hc,
        length_splitOnChar_cons_ne '.' c hc]
      exact ih

theorem segments_eq_one_of_not_contains (k : Str) (h : k.contains '.' = false) :
    segments k = 1 := by
  induction k with
  | nil => simp [segments, splitOnChar]
  | cons c rest ih =>
    simp only [List.contains_cons, Bool.or_eq_false_iff, beq_eq_false_iff_ne, ne_eq] at h
    have hc : ¬c = '.' := fun hcc => h.1 hcc.symm
    have hrest := ih h.2
    unfold segments at hrest ⊢
    rw [length_splitOnChar_cons_ne '.' c hc]
    exact hrest

theorem exists_split_of_contains (k : Str) (h : k.contains '.' = true) :
    ∃ a b, k = a ++ '.' :: b := by
  induction k with
  | nil => simp [List.contains_cons] at h
  | cons c rest ih =>
    by_cases hc : c = '.'
    · exact ⟨[], rest, by rw [hc]; rfl⟩
    · have hr : rest.contains '.' = true := by
        simp only [List.contains_cons, Bool.or_eq_true] at h
        rcases h with h | h
        · exact absurd (eq_of_beq h).symm hc
        · exact h
      obtain ⟨a, b, hab⟩ := ih hr
      exact ⟨c :: a, b, by rw [hab]; rfl⟩

theorem one_lt_segments_of_contains (k : Str) (h : k.contains '.' = true) :
    1 < segments k := by
  obtain ⟨a, b, rfl⟩ := exists_split_of_contains k h
  rw [segments_append_dot]
  have ha := segments_pos a
  have hb := segments_pos b
  omega

/-!
Embedding of src/parsers/types.ts and the shared helpers of
src/parsers/base-parser.ts (`getLineNumber`, `createVariable`).
-/

/-- ParsedVariable embeds the ParsedVariable interface of types.ts.  Indices
are JavaScript numbers restricted to the integers the code can produce. -/
structure ParsedVariable where
  key : Str
  value : Str
  startIndex : Int
  endIndex : Int
  lineNumber : Nat
  isNested : Bool
  isCommented : Bool
deriving DecidableEq

/-- ParserOptions embeds the ParserOptions interface of types.ts. -/
structure ParserOptions where
  maxNestedDepth : Nat
  includeCommented : Bool
deriving DecidableEq

/-- DEFAULT_PARSER_OPTIONS embeds the constant of the same name. -/
def DEFAULT_PARSER_OPTIONS : ParserOptions :=
  { maxNestedDepth := 10, includeCommented := true }

/-- getLineNumber embeds BaseParser.getLineNumber: the number of newlines in
content.substring(0, index). -/
def getLineNumber (content : Str) (index : Int) : Nat :=
  (jsSubstring content 0 index).count '\n'

/-- createVariable embeds BaseParser.createVariable. -/
def createVariable (key value : Str) (startIndex endIndex : Int) (content : Str)
    (isNested isCommented : Bool) : ParsedVariable :=
  { key := key, value := value, startIndex := startIndex, endIndex := endIndex,
    lineNumber := getLineNumber content startIndex,
    isNested := isNested, isCommented := isCommented }

/-!
Embedding of src/utils/pattern-matcher.ts.

A compiled JavaScript RegExp is modelled by its source string together with
the ignore-case flag.  The only sources this module ever builds are a
regex-escaped literal, optionally prefixed by a caret anchor and suffixed by
a dollar anchor, so the test semantics of such a source is given by
`litOfSource` (recovering the literal and the end anchor) and `jsRegexTest`
(anchored comparison after case folding, as the i flag prescribes).
-/

/-- lbraceChar is the left curly brace character. -/
def lbraceChar : Char := Char.ofNat 123

/-- rbraceChar is the right curly brace character. -/
def rbraceChar : Char := Char.ofNat 125

/-- regexMetaChars lists the characters of the class in escapeRegex's regex,
namely dot star plus question caret dollar braces parens pipe brackets and
backslash. -/
def regexMetaChars : List Char :=
  ['.', '*', '+', '?', '^', '$', lbraceChar, rbraceChar, '(', ')', '|', '[', ']', '\\']

/-- isRegexMeta tests membership in the escaped character class. -/
def isRegexMeta (c : Char) : Bool :=
  regexMetaChars.contains c

/-- escapeRegex embeds the escapeRegex function: every metacharacter is
replaced by a backslash followed by itself. -/
def escapeRegex (s : Str) : Str :=
  s.flatMap (fun c => if isRegexMeta c then ['\\', c] else [c])

/-- JsRegex models a compiled JavaScript RegExp value: its source text and
its ignore-case flag (always set by this module, the i flag). -/
structure JsRegex where
  source : Str
  ignoreCase : Bool
deriving DecidableEq

/-- patternToRegex embeds the patternToRegex function: the four glob shapes
are turned into an escaped literal with the corresponding anchors, compiled
case-insensitively. -/
def patternToRegex (p : Str) : JsRegex :=
  if startsWithChar p '*' && endsWithChar p '*' then
    { source := escapeRegex (p.drop 1).dropLast, ignoreCase := true }
  else if startsWithChar p '*' then
    { source := escapeRegex (p.drop 1) ++ ['$'], ignoreCase := true }
  else if endsWithChar p '*' then
    { source := '^' :: escapeRegex p.dropLast, ignoreCase := true }
  else
    { source := '^' :: (escapeRegex p ++ ['$']), ignoreCase := true }

/-- litOfSource interprets a regex source belonging to the fragment built by
patternToRegex after its optional leading caret: a sequence of characters in
which every metacharacter is backslash-escaped, optionally ending in a bare
dollar anchor.  It returns the denoted literal and whether the dollar anchor
is present; sources outside the fragment give none. -/
def litOfSource : Str → Option (Str × Bool)
  | [] => some ([], false)
  | ['$'] => some ([], true)
  | '\\' :: d :: rest2 => (litOfSource rest2).map (fun p => (d :: p.1, p.2))
  | c :: rest => if isRegexMeta c then none else (litOfSource rest).map (fun p => (c :: p.1, p.2))

/-- jsRegexSemSrc splits off the optional leading caret anchor of a source
string and interprets the remainder with litOfSource, yielding (start
anchored, literal, end anchored). -/
def jsRegexSemSrc : Str → Option (Bool × Str × Bool)
  | [] => some (false, [], false)
  | c :: rest =>
    if c = '^' then (litOfSource rest).map (fun p => (true, p.1, p.2))
    else (litOfSource (c :: rest)).map (fun p => (false, p.1, p.2))

/-- jsRegexSem is jsRegexSemSrc applied to a compiled regex's source. -/
def jsRegexSem (r : JsRegex) : Option (Bool × Str × Bool) :=
  jsRegexSemSrc r.source

/-- jsRegexTest models RegExp.prototype.test for the regexes this module
compiles: an anchored-literal search, case folded when the i flag is set. -/
def jsRegexTest (r : JsRegex) (key : Str) : Bool :=
  match jsRegexSem r with
  | none => false
  | some (sa, lit, ea) =>
    let k := if r.ignoreCase then lowerStr key else key
    let l := if r.ignoreCase then lowerStr lit else lit
    match sa, ea with
    | true, true => k == l
    | true, false => l.isPrefixOf k
    | false, true => l.isSuffixOf k
    | false, false => (subIdxAux l k 0).isSome

/-- matchesAnyPattern embeds the matchesAnyPattern function.  The per-pattern
try/catch of the source is dead code under this model: escaped literals are
always valid regex sources, so compilation never throws and the catch branch
returning false is unreachable. -/
def matchesAnyPattern (key : Str) (patterns : List Str) : Bool :=
  if patterns.isEmpty then false
  else patterns.any (fun p => jsRegexTest (patternToRegex p) key)

/-- PMCache models the private Map of the PatternMatcher class as an
insertion-ordered association list from pattern source text to compiled
regex. -/
abbrev PMCache := List (Str × JsRegex)

/-- cacheGet models Map.get combined with Map.has. -/
def cacheGet (c : PMCache) (p : Str) : Option JsRegex :=
  (c.find? (fun e => e.1 == p)).map (fun e => e.2)

/-- getRegex embeds PatternMatcher.getRegex: return the cached regex or
compile, store (Map.set appends a new key) and return it. -/
def getRegex (c : PMCache) (p : Str) : JsRegex × PMCache :=
  match cacheGet c p with
  | some r => (r, c)
  | none =>
    let r := patternToRegex p
    (r, c ++ [(p, r)])

/-- pmMatchesGo embeds the short-circuiting patterns.some callback of
PatternMatcher.matches, threading the cache through the iteration. -/
def pmMatchesGo (key : Str) : PMCache → List Str → Bool × PMCache
  | c, [] => (false, c)
  | c, p :: ps =>
    let rc := getRegex c p
    if jsRegexTest rc.1 key then (true, rc.2)
    else pmMatchesGo key rc.2 ps

/-- pmMatches embeds PatternMatcher.matches; as in matchesAnyPattern the
per-pattern catch is unreachable. -/
def pmMatches (c : PMCache) (key : Str) (patterns : List Str) : Bool × PMCache :=
  if patterns.isEmpty then (false, c)
  else pmMatchesGo key c patterns

/-- cacheWF says every cached entry stores the compilation of its own key,
which is an invariant of every reachable PatternMatcher state. -/
def cacheWF (c : PMCache) : Prop :=
  ∀ e ∈ c, e.2 = patternToRegex e.1

theorem litOfSource_cons_escaped (d : Char) (r2 : Str) :
    litOfSource ('\\' :: d :: r2) = (litOfSource r2).map (fun p => (d :: p.1, p.2)) := by
  simp [litOfSource]

theorem litOfSource_cons_plain (c : Char) (r2 : Str) (hb : ¬c = '\\') (hd : ¬c = '$')
    (hm : ¬isRegexMeta c = true) :
    litOfSource (c :: r2) = (litOfSource r2).map (fun p => (c :: p.1, p.2)) := by
  rcases r2 with _ | ⟨e, r3⟩
  · simp [litOfSource, hd, hm]
  · simp [litOfSource, hb, hm]

theorem litOfSource_escape (l : Str) : litOfSource (escapeRegex l) = some (l, false) := by
  induction l with
  | nil => rfl
  | cons c rest ih =>
    by_cases hm : isRegexMeta c = true
    · have hesc : escapeRegex (c :: rest) = '\\' :: c :: escapeRegex rest := by
        simp [escapeRegex, hm]
      rw [hesc, litOfSource_cons_escaped, ih]
      rfl
    · have hesc : escapeRegex (c :: rest) = c :: escapeRegex rest := by
        simp [escapeRegex, hm]
      have hb : ¬c = '\\' := by
        intro h
        subst h
        exact hm (by decide)
      have hd : ¬c = '$' := by
        intro h
        subst h
        exact hm (by decide)
      rw [hesc, litOfSource_cons_plain c _ hb hd hm, ih]
      rfl

theorem litOfSource_escape_dollar (l : Str) :
    litOfSource (escapeRegex l ++ ['$']) = some (l, true) := by
  induction l with
  | nil => rfl
  | cons c rest ih =>
    by_cases hm : isRegexMeta c = true
    · have hesc : escapeRegex (c :: rest) ++ ['$'] = '\\' :: c :: (escapeRegex rest ++ ['$']) := by
        simp [escapeRegex, hm]
      rw [hesc, litOfSource_cons_escaped, ih]
      rfl
    · have hesc : escapeRegex (c :: rest) ++ ['$'] = c :: (escapeRegex rest ++ ['$']) := by
        simp [escapeRegex, hm]
      have hb : ¬c = '\\' := by
        intro h
        subst h
        exact hm (by decide)
      have hd : ¬c = '$' := by
        intro h
        subst h
        exact hm (by decide)
      rw [hesc, litOfSource_cons_plain c _ hb hd hm, ih]
      rfl

theorem escapeRegex_head_ne_caret (l : Str) (c : Char) (rest : Str)
    (h : escapeRegex l = c :: rest) : ¬c = '^' := by
  cases l with
  | nil => simp [escapeRegex] at h
  | cons a l' =>
    by_cases hm : isRegexMeta a = true
    · have : escapeRegex (a :: l') = '\\' :: a :: escapeRegex l' := by
        simp [escapeRegex, hm]
      rw [this] at h
      cases h
      decide
    · have : escapeRegex (a :: l') = a :: escapeRegex l' := by
        simp [escapeRegex, hm]
      rw [this] at h
      cases h
      intro hc
      subst hc
      exact hm (by decide)

theorem escapeRegex_eq_nil (l : Str) (h : escapeRegex l = []) : l = [] := by
  cases l with
  | nil => rfl
  | cons a l' =>
    by_cases hm : isRegexMeta a = true
    · have he : escapeRegex (a :: l') = '\\' :: a :: escapeRegex l' := by
        simp [escapeRegex, hm]
      rw [he] at h
      cases h
    · have he : escapeRegex (a :: l') = a :: escapeRegex l' := by
        simp [escapeRegex, hm]
      rw [he] at h
      cases h

theorem jsRegexSemSrc_plain (l : Str) :
    jsRegexSemSrc (escapeRegex l) = some (false, l, false) := by
  cases hsrc : escapeRegex l with
  | nil =>
    have hl := escapeRegex_eq_nil l hsrc
    subst hl
    rfl
  | cons c rest =>
    have hc := escapeRegex_head_ne_caret l c rest hsrc
    simp only [jsRegexSemSrc]
    rw [if_neg hc, ← hsrc, litOfSource_escape]
    rfl

theorem jsRegexSemSrc_dollar (l : Str) :
    jsRegexSemSrc (escapeRegex l ++ ['$']) = some (false, l, true) := by
  cases hsrc : escapeRegex l ++ ['$'] with
  | nil => simp at hsrc
  | cons c rest =>
    have hc : ¬c = '^' := by
      intro h
      subst h
      cases hl : escapeRegex l with
      | nil =>
        rw [hl] at hsrc
        simp only [List.nil_append] at hsrc
        injection hsrc with h1 h2
        exact absurd h1 (by decide)
      | cons a l' =>
        rw [hl] at hsrc
        simp only [List.cons_append] at hsrc
        injection hsrc with h1 h2
        exact (escapeRegex_head_ne_caret l a l' hl) h1
    simp only [jsRegexSemSrc]
    rw [if_neg hc, ← hsrc, litOfSource_escape_dollar]
    rfl

theorem jsRegexSemSrc_caret (l : Str) :
    jsRegexSemSrc ('^' :: escapeRegex l) = some (true, l, false) := by
  rw [jsRegexSemSrc, if_pos rfl, litOfSource_escape]
  rfl

theorem jsRegexSemSrc_caret_dollar (l : Str) :
    jsRegexSemSrc ('^' :: (escapeRegex l ++ ['$'])) = some (true, l, true) := by
  rw [jsRegexSemSrc, if_pos rfl, litOfSource_escape_dollar]
  rfl

theorem jsRegexSem_plain (l : Str) :
    jsRegexSem { source := escapeRegex l, ignoreCase := true } = some (false, l, false) :=
  jsRegexSemSrc_plain l

theorem jsRegexSem_dollar (l : Str) :
    jsRegexSem { source := escapeRegex l ++ ['$'], ignoreCase := true } =
      some (false, l, true) :=
  jsRegexSemSrc_dollar l

theorem jsRegexSem_caret (l : Str) :
    jsRegexSem { source := '^' :: escapeRegex l, ignoreCase := true } =
      some (true, l, false) :=
  jsRegexSemSrc_caret l

theorem jsRegexSem_caret_dollar (l : Str) :
    jsRegexSem { source := '^' :: (escapeRegex l ++ ['$']), ignoreCase := true } =
      some (true, l, true) :=
  jsRegexSemSrc_caret_dollar l

theorem subIdxAux_isSome_iff (needle : Str) :
    ∀ hay i, (subIdxAux needle hay i).isSome = true ↔ needle <:+: hay := by
  intro hay
  induction hay with
  | nil =>
    intro i
    rw [subIdxAux]
    by_cases h : needle.isPrefixOf [] = true
    · simp only [if_pos h, Option.isSome_some]
      have : needle <+: [] := by simpa using h
      simp [List.IsPrefix.isInfix this]
    · simp only [if_neg h, Option.isSome_none, Bool.false_eq_true, false_iff]
      intro hinf
      have hn : needle = [] := List.eq_nil_of_infix_nil hinf
      subst hn
      exact h (by decide)
  | cons c rest ih =>
    intro i
    rw [subIdxAux]
    by_cases h : needle.isPrefixOf (c :: rest) = true
    · simp only [if_pos h, Option.isSome_some]
      have : needle <+: c :: rest := by simpa using h
      simp [List.IsPrefix.isInfix this]
    · simp only [if_neg h]
      rw [ih (i + 1)]
      constructor
      · intro hinf
        exact List.infix_cons hinf
      · intro hinf
        rcases List.infix_cons_iff.mp hinf with hp | hi
        · exact absurd (by simpa using hp) h
        · exact hi

/-- Claim C4: the five-way semantics of a compiled glob, keyed on the shape tests the
code performs, with the claim-side reading (contains, ends with, starts
with, equals, all case-insensitively on the escaped literal body). -/
theorem c4_patternToRegex_semantics (p key : Str) :
    (startsWithChar p '*' = true → endsWithChar p '*' = true →
      (jsRegexTest (patternToRegex p) key = true ↔
        lowerStr ((p.drop 1).dropLast) <:+: lowerStr key)) ∧
    (startsWithChar p '*' = true → endsWithChar p '*' = false →
      (jsRegexTest (patternToRegex p) key = true ↔
        lowerStr (p.drop 1) <:+ lowerStr key)) ∧
    (startsWithChar p '*' = false → endsWithChar p '*' = true →
      (jsRegexTest (patternToRegex p) key = true ↔
        lowerStr p.dropLast <+: lowerStr key)) ∧
    (startsWithChar p '*' = false → endsWithChar p '*' = false →
      (jsRegexTest (patternToRegex p) key = true ↔ lowerStr key = lowerStr p)) := by
  refine ⟨?_, ?_, ?_, ?_⟩
  · intro hs he
    have hpr : patternToRegex p =
        { source := escapeRegex (p.drop 1).dropLast, ignoreCase := true } := by
      unfold patternToRegex
      rw [hs, he]
      rfl
    rw [hpr]
    unfold jsRegexTest
    rw [jsRegexSem_plain]
    exact subIdxAux_isSome_iff _ _ 0
  · intro hs he
    have hpr : patternToRegex p =
        { source := escapeRegex (p.drop 1) ++ ['$'], ignoreCase := true } := by
      unfold patternToRegex
      rw [hs, he]
      rfl
    rw [hpr]
    unfold jsRegexTest
    rw [jsRegexSem_dollar]
    exact List.isSuffixOf_iff_suffix
  · intro hs he
    have hpr : patternToRegex p =
        { source := '^' :: escapeRegex p.dropLast, ignoreCase := true } := by
      unfold patternToRegex
      rw [hs, he]
      rfl
    rw [hpr]
    unfold jsRegexTest
    rw [jsRegexSem_caret]
    exact List.isPrefixOf_iff_prefix
  · intro hs he
    have hpr : patternToRegex p =
        { source := '^' :: (escapeRegex p ++ ['$']), ignoreCase := true } := by
      unfold patternToRegex
      rw [hs, he]
      rfl
    rw [hpr]
    unfold jsRegexTest
    rw [jsRegexSem_caret_dollar]
    exact beq_iff_eq

/-- Witness: the contains shape accepts a differently-cased key. -/
theorem c4_patternToRegex_semantics_witness :
    jsRegexTest (patternToRegex ("*KEY*".toList)) ("api_key".toList) = true :=
  ((c4_patternToRegex_semantics ("*KEY*".toList) ("api_key".toList)).1 rfl rfl).mpr
    (by decide)

/-- Claim C5: the empty pattern list is a vacuous non-match and a nonempty list
matches exactly when one of its patterns matches the key. -/
theorem c5_matchesAnyPattern_spec :
    (∀ key : Str, matchesAnyPattern key [] = false) ∧
    (∀ (key : Str) (patterns : List Str), patterns ≠ [] →
      (matchesAnyPattern key patterns = true ↔
        ∃ p ∈ patterns, jsRegexTest (patternToRegex p) key = true)) := by
  constructor
  · intro key
    rfl
  · intro key patterns hne
    unfold matchesAnyPattern
    rw [if_neg (by simpa using hne)]
    simp [List.any_eq_true]

/-- Witness: an exact pattern matches the equal key. -/
theorem c5_matchesAnyPattern_spec_witness :
    matchesAnyPattern ("PASSWORD".toList) ["PASSWORD".toList] = true :=
  (c5_matchesAnyPattern_spec.2 ("PASSWORD".toList) ["PASSWORD".toList] (by decide)).mpr
    ⟨"PASSWORD".toList, by decide, by decide⟩

theorem getRegex_wf (c : PMCache) (p : Str) (h : cacheWF c) :
    (getRegex c p).1 = patternToRegex p ∧ cacheWF (getRegex c p).2 := by
  unfold getRegex
  cases hg : cacheGet c p with
  | some r =>
    refine ⟨?_, h⟩
    unfold cacheGet at hg
    cases hf : c.find? (fun e => e.1 == p) with
    | none =>
      rw [hf] at hg
      simp at hg
    | some e =>
      rw [hf] at hg
      simp at hg
      have hmem := List.mem_of_find?_eq_some hf
      have hkey := List.find?_some hf
      have hep : e.1 = p := by simpa using hkey
      show r = patternToRegex p
      rw [← hg, h e hmem, hep]
  | none =>
    refine ⟨rfl, ?_⟩
    intro e he
    rcases List.mem_append.mp he with hmem | hmem
    · exact h e hmem
    · have hpe : e = (p, patternToRegex p) := by simpa using hmem
      rw [hpe]

theorem pmMatchesGo_eq (key : Str) (patterns : List Str) :
    ∀ c : PMCache, cacheWF c →
      (pmMatchesGo key c patterns).1 =
        patterns.any (fun p => jsRegexTest (patternToRegex p) key) ∧
      cacheWF (pmMatchesGo key c patterns).2 := by
  induction patterns with
  | nil =>
    intro c hc
    exact ⟨rfl, hc⟩
  | cons p ps ih =>
    intro c hc
    have hg := getRegex_wf c p hc
    simp only [pmMatchesGo]
    rw [hg.1]
    by_cases ht : jsRegexTest (patternToRegex p) key = true
    · simp [ht, hg.2]
    · have ht' : jsRegexTest (patternToRegex p) key = false := by
        cases hb : jsRegexTest (patternToRegex p) key
        · rfl
        · exact absurd hb ht
      simp only [ht', if_false, Bool.false_eq_true, List.any_cons, Bool.false_or]
      exact ih (getRegex c p).2 hg.2

/-- Claim C10: the caching matcher computes the same boolean as the uncached function
from any well-formed cache state, and preserves well-formedness, so all
reachable PatternMatcher states agree with matchesAnyPattern. -/
theorem c10_pmMatches_eq_matchesAnyPattern (c : PMCache) (key : Str)
    (patterns : List Str) (h : cacheWF c) :
    (pmMatches c key patterns).1 = matchesAnyPattern key patterns ∧
    cacheWF (pmMatches c key patterns).2 := by
  unfold pmMatches matchesAnyPattern
  by_cases he : patterns.isEmpty = true
  · simp [he, h]
  · have he' : patterns.isEmpty = false := by
      cases hb : patterns.isEmpty
      · rfl
      · exact absurd hb he
    simp only [he', if_false, Bool.false_eq_true]
    exact pmMatchesGo_eq key patterns c h

/-- Witness: the caching matcher agrees with the uncached function on a
fresh cache for a concrete key and pattern list. -/
theorem c10_pmMatches_eq_matchesAnyPattern_witness :
    (pmMatches [] ("api_key".toList) ["*KEY*".toList]).1 =
      matchesAnyPattern ("api_key".toList) ["*KEY*".toList] :=
  (c10_pmMatches_eq_matchesAnyPattern [] ("api_key".toList) ["*KEY*".toList]
    (by intro e he; simp at he)).1

/-!
Embedding of src/parsers/env-parser.ts.

ENV_VAR_REGEX is the global multiline regex
caret backslash-s-star (export backslash-s-plus)? ([A-Za-z_][A-Za-z0-9_]*)
backslash-s-star equals backslash-s-star (dot-star) dollar.
Under multiline anchors a match can only begin at offset 0 or right after a
line terminator, and every quantified class in the regex is disjoint from
the token that follows it, so backtracking never changes the outcome and the
regex is embedded as a maximal-munch matcher; the optional export group is
the one genuine alternative and is tried greedily first, as the engine does.
The exec loop over the global regex is embedded by searching for the
leftmost anchored match at or after lastIndex and resuming past each match
(matches are nonempty, so the loop advances).  COMMENTED_ENV_VAR_REGEX adds
a hash and whitespace after the leading whitespace and is embedded by the
same matcher with the withHash switch.
-/

/-- isIdentStart models the regex class [A-Za-z_]. -/
def isIdentStart (c : Char) : Bool :=
  c.isAlpha || c == '_'

/-- isIdentChar models the regex class [A-Za-z0-9_]. -/
def isIdentChar (c : Char) : Bool :=
  c.isAlphanum || c == '_'

/-- EnvMatch is the result of one env regex match: the two capture groups
and the length of the full match. -/
structure EnvMatch where
  key : Str
  value : Str
  fullLen : Nat
deriving DecidableEq

/-- envMatchRest matches the identifier, equals sign and value part of the
env regex starting at the identifier: ([A-Za-z_][A-Za-z0-9_]*)
backslash-s-star equals backslash-s-star (dot-star) dollar, returning key,
value and consumed length. -/
def envMatchRest (u : Str) : Option (Str × Str × Nat) :=
  match u with
  | [] => none
  | c :: _ =>
    if isIdentStart c then
      let key := u.takeWhile isIdentChar
      let u2 := u.drop key.length
      let w1 := trimStartLen u2
      match u2.drop w1 with
      | '=' :: u4 =>
        let w2 := trimStartLen u4
        let value := (u4.drop w2).takeWhile (fun c => !jsLineTerm c)
        some (key, value, key.length + w1 + 1 + w2 + value.length)
      | _ => none
    else none

/-- envMatchAt matches the env regex (with the commented prefix when
withHash is set) at an anchored position, given the suffix there. -/
def envMatchAt (withHash : Bool) (t : Str) : Option EnvMatch :=
  let w0 := trimStartLen t
  let t1 := t.drop w0
  let hashPart : Option (Nat × Str) :=
    if withHash then
      match t1 with
      | '#' :: t2 =>
        let wh := trimStartLen t2
        some (1 + wh, t2.drop wh)
      | _ => none
    else some (0, t1)
  match hashPart with
  | none => none
  | some (hlen, t2) =>
    let exported : Option (Str × Str × Nat) :=
      if ("export".toList).isPrefixOf t2 then
        let t3 := t2.drop 6
        let we := trimStartLen t3
        if 1 ≤ we then
          (envMatchRest (t3.drop we)).map (fun r => (r.1, r.2.1, 6 + we + r.2.2))
        else none
      else none
    match exported.orElse (fun _ => envMatchRest t2) with
    | none => none
    | some r => some { key := r.1, value := r.2.1, fullLen := w0 + hlen + r.2.2 }

/-- isLineStartAt says a multiline caret can match at this offset: the start
of input or the position right after a line terminator. -/
def isLineStartAt (s : Str) (i : Nat) : Bool :=
  i == 0 || (s.drop (i - 1)).head?.any jsLineTerm

/-- envFindFrom finds the leftmost anchored match at or after pos, as
RegExp.exec does from lastIndex.  The fuel argument bounds the linear scan
and is always called with more fuel than remaining positions. -/
def envFindFrom (s : Str) (withHash : Bool) : Nat → Nat → Option (Nat × EnvMatch)
  | 0, _ => none
  | fuel + 1, pos =>
    if pos > s.length then none
    else
      match (if isLineStartAt s pos then envMatchAt withHash (s.drop pos) else none) with
      | some m => some (pos, m)
      | none => envFindFrom s withHash fuel (pos + 1)

/-- envScanLoop embeds EnvParser.parseWithRegex: the while loop over
regex.exec, skipping matches whose trimmed value is empty and recording
startIndex right after the equals sign of the full match and endIndex at the
end of the full match.  Fuel bounds the iteration count; every match
consumes at least the equals sign, so content length plus one iterations
always suffice, matching the terminating JavaScript loop. -/
def envScanLoop (s : Str) (withHash isCommented : Bool) : Nat → Nat → List ParsedVariable
  | 0, _ => []
  | fuel + 1, pos =>
    match envFindFrom s withHash (s.length + 1) pos with
    | none => []
    | some (idx, m) =>
      let rest := envScanLoop s withHash isCommented fuel (idx + m.fullLen)
      if (trimStr m.value).isEmpty then rest
      else
        let fullMatch := (s.drop idx).take m.fullLen
        let equalsIndex := jsIndexOfChar fullMatch '='
        let valueStartIndex : Int := (idx : Int) + equalsIndex + 1
        let valueEndIndex : Int := (idx : Int) + (m.fullLen : Int)
        createVariable m.key m.value valueStartIndex valueEndIndex s false isCommented :: rest

/-- envParse embeds EnvParser.parse: the plain pass followed, when
includeCommented is set, by the commented pass. -/
def envParse (opts : ParserOptions) (content : Str) : List ParsedVariable :=
  envScanLoop content false false (content.length + 1) 0 ++
    (if opts.includeCommented then
      envScanLoop content true true (content.length + 1) 0
    else [])

theorem envScanLoop_isNested_false (s : Str) (withHash isCommented : Bool) :
    ∀ fuel pos v, v ∈ envScanLoop s withHash isCommented fuel pos →
      v.isNested = false := by
  intro fuel
  induction fuel with
  | zero =>
    intro pos v hv
    simp [envScanLoop] at hv
  | succ n ih =>
    intro pos v hv
    rw [envScanLoop] at hv
    cases hf : envFindFrom s withHash (s.length + 1) pos with
    | none =>
      rw [hf] at hv
      simp at hv
    | some r =>
      rw [hf] at hv
      obtain ⟨idx, m⟩ := r
      simp only at hv
      by_cases he : (trimStr m.value).isEmpty = true
      · rw [if_pos he] at hv
        exact ih _ v hv
      · rw [if_neg he] at hv
        rcases List.mem_cons.mp hv with hv | hv
        · rw [hv]
          rfl
        · exact ih _ v hv

theorem envParse_isNested_false (opts : ParserOptions) (content : Str) :
    ∀ v ∈ envParse opts content, v.isNested = false := by
  intro v hv
  unfold envParse at hv
  rcases List.mem_append.mp hv with hv | hv
  · exact envScanLoop_isNested_false content false false _ _ v hv
  · by_cases h : opts.includeCommented = true
    · rw [if_pos h] at hv
      exact envScanLoop_isNested_false content true true _ _ v hv
    · rw [if_neg h] at hv
      simp at hv

theorem envParse_nil (opts : ParserOptions) : envParse opts [] = [] := by
  unfold envParse
  cases h : opts.includeCommented
  · rfl
  · rfl

/-- Claim C9, Scenario A: the env parser on the two-line example returns exactly two
variables, the first with key API_KEY, value secret123 and span [8, 17). -/
theorem c9_env_scenarioA :
    (envParse DEFAULT_PARSER_OPTIONS ("API_KEY=secret123\nDB_HOST=localhost".toList)).length
        = 2 ∧
    (envParse DEFAULT_PARSER_OPTIONS ("API_KEY=secret123\nDB_HOST=localhost".toList)).head?
        = some { key := "API_KEY".toList, value := "secret123".toList,
                 startIndex := 8, endIndex := 17, lineNumber := 0,
                 isNested := false, isCommented := false } := by
  constructor
  · rfl
  · rfl

/-- Claim C1, code bug: the round-trip law fails in the env parser whenever whitespace follows
the equals sign: on the input below the parser reports value b with span
[2, 4), but slicing that span yields a space before the b.  The value
capture group deliberately skips the whitespace after the equals sign while
startIndex is computed as the offset right after the equals sign, so the
documented invariant text[startIndex:endIndex] == value is broken. -/
theorem c1_env_span_bug :
    envParse DEFAULT_PARSER_OPTIONS ("A= b".toList) =
      [{ key := "A".toList, value := "b".toList, startIndex := 2, endIndex := 4,
         lineNumber := 0, isNested := false, isCommented := false }] ∧
    jsSlice ("A= b".toList) 2 4 = " b".toList ∧
    " b".toList ≠ "b".toList := by
  refine ⟨rfl, rfl, ?_⟩
  decide

/-!
Embedding of the properties parser (PropertiesParser, file
properties-parser.ts).

Its per-line regexes share one deterministic shape: a key from the class
[a-zA-Z_][a-zA-Z0-9_.-]*, whitespace, a separator from [=:], whitespace and
a final group anchored at the line end.  The key class excludes whitespace
and both separators, so maximal munch is exact.  Because the regexes carry
no multiline flag, the dollar anchor only matches at the very end of the
string, so a group of the dot class fails when a carriage return remains in
the tail; and for the plus-group variant an all-whitespace tail backtracks
one character out of the preceding whitespace star, making the group the
final whitespace character (when that character is not a line terminator).
keyValCore implements exactly this. -/

/-- isKeyStart models the regex class [a-zA-Z_]. -/
def isKeyStart (c : Char) : Bool :=
  c.isAlpha || c == '_'

/-- isKeyChar models the regex class [a-zA-Z0-9_.-]. -/
def isKeyChar (c : Char) : Bool :=
  c.isAlphanum || c == '_' || c == '.' || c == '-'

/-- keyValCore matches key, whitespace, one separator out of seps,
whitespace, and the trailing group ((.+) when plusGroup, else (.*)) against
the end-anchored tail, returning the two capture groups. -/
def keyValCore (seps : List Char) (plusGroup : Bool) (t : Str) : Option (Str × Str) :=
  match t with
  | [] => none
  | c :: _ =>
    if isKeyStart c then
      let key := t.takeWhile isKeyChar
      let t2 := t.drop key.length
      let w1 := trimStartLen t2
      match t2.drop w1 with
      | sep :: t3 =>
        if seps.contains sep then
          let w2 := trimStartLen t3
          let g2 := t3.drop w2
          if g2.isEmpty then
            if plusGroup then
              match (t3.take w2).getLast? with
              | some wc => if jsLineTerm wc then none else some (key, [wc])
              | none => none
            else some (key, g2)
          else if g2.any jsLineTerm then none
          else some (key, g2)
        else none
      | [] => none
    else none

/-- sectionHeaderInner matches the section regex: a bracketed nonempty
body free of closing brackets spanning the whole trimmed line. -/
def sectionHeaderInner (trimmed : Str) : Option Str :=
  if startsWithChar trimmed '[' && endsWithChar trimmed ']' then
    let inner := (trimmed.drop 1).dropLast
    if inner.isEmpty || inner.contains ']' then none else some inner
  else none

/-- isPureCommentProps models the pure-comment test of the properties
parser: the trimmed line starts with hash or semicolon or a double slash. -/
def isPureCommentProps (trimmed : Str) : Bool :=
  (match trimmed.head? with
   | some c => c == '#' || c == ';'
   | none => false) || ("//".toList).isPrefixOf trimmed

/-- propsCommentedMatch embeds the commented-property regex: leading
whitespace, hash or semicolon, whitespace, then key, separator and a
nonempty trailing group. -/
def propsCommentedMatch (line : Str) : Option (Str × Str) :=
  match line.drop (trimStartLen line) with
  | c :: t2 =>
    if c == '#' || c == ';' then
      keyValCore ['=', ':'] true (t2.drop (trimStartLen t2))
    else none
  | [] => none

/-- buildPropsKey embeds PropertiesParser.buildKey. -/
def buildPropsKey (sect key : Str) : Str :=
  if sect.isEmpty then key else sect ++ '.' :: key

/-- propsLoop embeds the line loop of PropertiesParser.parse, threading the
running character offset and the current section, and returning the final
section alongside the variables (the instance field retains it). -/
def propsLoop (opts : ParserOptions) (content : Str) :
    List Str → Nat → Str → (List ParsedVariable × Str)
  | [], _, sect => ([], sect)
  | line :: rest, ci, sect =>
    let trimmed := trimStr line
    let nextCi := ci + line.length + 1
    match sectionHeaderInner trimmed with
    | some sec => propsLoop opts content rest nextCi sec
    | none =>
      if trimmed.isEmpty || isPureCommentProps trimmed then
        let here : List ParsedVariable :=
          if opts.includeCommented then
            match propsCommentedMatch line with
            | some kg =>
              let key := buildPropsKey sect kg.1
              let value := trimStr kg.2
              let vs : Int := (ci : Int) + jsIndexOfSub line kg.2
              let ve : Int := vs + (kg.2.length : Int)
              [createVariable key value vs ve content false true]
            | none => []
          else []
        let r := propsLoop opts content rest nextCi sect
        (here ++ r.1, r.2)
      else
        match keyValCore ['=', ':'] false trimmed with
        | some kg =>
          let value := trimStr kg.2
          if value.isEmpty then propsLoop opts content rest nextCi sect
          else
            let sepIdx := jsSearchSep line
            let valueStartIndex : Int := (ci : Int) + sepIdx + 1
            let valueInLine := jsSubstring line (sepIdx + 1) line.length
            let valueOffset := trimStartLen valueInLine
            let actualValueStart := valueStartIndex + valueOffset
            let valueEndIndex : Int := (ci : Int) + (line.length : Int)
            let r := propsLoop opts content rest nextCi sect
            (createVariable (buildPropsKey sect kg.1) value actualValueStart valueEndIndex
              content false false :: r.1, r.2)
        | none => propsLoop opts content rest nextCi sect

/-- PropertiesState models a PropertiesParser instance: its options and its
currentSection field. -/
structure PropertiesState where
  options : ParserOptions
  currentSection : Str

/-- propertiesParseSt embeds PropertiesParser.parse on an instance: the
currentSection field is assigned the empty string at the start of the call,
the line loop runs, and the field retains the last section afterwards. -/
def propertiesParseSt (st : PropertiesState) (content : Str) :
    List ParsedVariable × PropertiesState :=
  let r := propsLoop st.options content (splitNl content) 0 []
  (r.1, { st with currentSection := r.2 })

/-- propertiesParse is parse on a freshly constructed instance, whose field
initializer sets currentSection to the empty string. -/
def propertiesParse (opts : ParserOptions) (content : Str) : List ParsedVariable :=
  (propertiesParseSt { options := opts, currentSection := [] } content).1

/-- propertiesCanParse embeds PropertiesParser.canParse: the last
dot-separated component of the lowercased name must be one of the three
tokens. -/
def propertiesCanParse (fileName : Str) : Bool :=
  let ext := (splitOnChar '.' (lowerStr fileName)).getLastD []
  ext == "properties".toList || ext == "ini".toList || ext == "conf".toList

/-- propertiesCanParseSpec follows the claim's words: accept exactly the
file names whose extension is one of the three supported extensions,
case-insensitively — that is, whose lowercased name ends in a dot followed
by the token. -/
def propertiesCanParseSpec (fileName : Str) : Bool :=
  endsWithStr (lowerStr fileName) (".properties".toList) ||
    endsWithStr (lowerStr fileName) (".ini".toList) ||
    endsWithStr (lowerStr fileName) (".conf".toList)

theorem splitOnChar_of_not_contains (c : Char) (s : Str) (h : s.contains c = false) :
    splitOnChar c s = [s] := by
  induction s with
  | nil => rfl
  | cons a r ih =>
    simp only [List.contains_cons, Bool.or_eq_false_iff, beq_eq_false_iff_ne, ne_eq] at h
    have hac : ¬a = c := fun hh => h.1 hh.symm
    simp only [splitOnChar, if_neg hac]
    rw [ih h.2]

theorem splitOnChar_singleton_inv (c : Char) (s l : Str) (h : splitOnChar c s = [l]) :
    l = s ∧ s.contains c = false := by
  induction s generalizing l with
  | nil =>
    rw [splitOnChar_nil] at h
    injection h with h1 h2
    exact ⟨h1.symm, rfl⟩
  | cons a r ih =>
    by_cases hac : a = c
    · subst hac
      rw [splitOnChar_cons_self] at h
      injection h with h1 h2
      exact absurd h2 (splitOnChar_ne_nil a r)
    · simp only [splitOnChar, if_neg hac] at h
      cases hs : splitOnChar c r with
      | nil => exact absurd hs (splitOnChar_ne_nil c r)
      | cons l' ls' =>
        rw [hs] at h
        injection h with h1 h2
        subst h2
        obtain ⟨hl', hfree⟩ := ih l' hs
        subst hl'
        refine ⟨h1.symm, ?_⟩
        simp only [List.contains_cons, Bool.or_eq_false_iff, beq_eq_false_iff_ne, ne_eq]
        exact ⟨fun hh => hac hh.symm, hfree⟩

theorem splitOnChar_cons_ne (sep c : Char) (hc : ¬c = sep) (rest : Str) :
    ∃ l ls, splitOnChar sep rest = l :: ls ∧ splitOnChar sep (c :: rest) = (c :: l) :: ls := by
  cases hs : splitOnChar sep rest with
  | nil => exact absurd hs (splitOnChar_ne_nil sep rest)
  | cons l ls =>
    refine ⟨l, ls, rfl, ?_⟩
    simp only [splitOnChar, if_neg hc, hs]

theorem getLastD_splitOnChar_eq_iff (t : Str) (ht : t.contains '.' = false) :
    ∀ s : Str, ((splitOnChar '.' s).getLastD [] = t) ↔ (s = t ∨ ('.' :: t) <:+ s) := by
  intro s
  induction s with
  | nil =>
    rw [splitOnChar_nil]
    simp only [List.getLastD_cons, List.getLastD_nil]
    constructor
    · intro h
      exact Or.inl h
    · intro h
      rcases h with h | h
      · exact h
      · exact absurd (List.suffix_nil.mp h) (by simp)
  | cons a r ih =>
    by_cases hac : a = '.'
    · subst hac
      rw [splitOnChar_cons_self, List.getLastD_cons]
      rw [ih]
      constructor
      · intro h
        rcases h with h | h
        · exact Or.inr (List.suffix_cons_iff.mpr (Or.inl (by rw [h])))
        · exact Or.inr (List.suffix_cons_iff.mpr (Or.inr h))
      · intro h
        rcases h with h | h
        · exfalso
          rw [← h] at ht
          simp [List.contains_cons] at ht
        · rcases List.suffix_cons_iff.mp h with h | h
          · injection h with h1 h2
            exact Or.inl h2.symm
          · exact Or.inr h
    · obtain ⟨l, ls, hs, hcons⟩ := splitOnChar_cons_ne '.' a hac r
      rw [hcons]
      cases ls with
      | nil =>
        obtain ⟨hl, hfree⟩ := splitOnChar_singleton_inv '.' r l hs
        simp only [List.getLastD_cons, List.getLastD_nil]
        rw [hl]
        constructor
        · intro h
          exact Or.inl h
        · intro h
          rcases h with h | h
          · exact h
          · exfalso
            rcases List.suffix_cons_iff.mp h with h | h
            · injection h with h1 h2
              exact hac h1.symm
            · have hmem : '.' ∈ r := h.subset (List.mem_cons_self '.' t)
              rw [List.contains_eq_any_beq] at hfree
              have hfa := List.any_eq_false.mp hfree '.' hmem
              simp at hfa
      | cons l2 ls2 =>
        have hcont : r.contains '.' = true := by
          by_cases hf : r.contains '.' = false
          · rw [splitOnChar_of_not_contains '.' r hf] at hs
            injection hs with h1 h2
            cases h2
          · cases hb : r.contains '.'
            · exact absurd hb hf
            · rfl
        have hlast : ((a :: l) :: l2 :: ls2).getLastD [] = (splitOnChar '.' r).getLastD [] := by
          rw [hs]
          simp only [List.getLastD_cons]
        rw [hlast, ih]
        have hrt : ¬r = t := by
          intro hh
          rw [hh] at hcont
          rw [ht] at hcont
          cases hcont
        constructor
        · intro h
          rcases h with h | h
          · exact absurd h hrt
          · exact Or.inr (List.suffix_cons_iff.mpr (Or.inr h))
        · intro h
          rcases h with h | h
          · exfalso
            have : (a :: r).contains '.' = false := by rw [h]; exact ht
            simp only [List.contains_cons, Bool.or_eq_false_iff] at this
            rw [hcont] at this
            cases this.2
          · rcases List.suffix_cons_iff.mp h with h | h
            · injection h with h1 h2
              exact absurd h1.symm hac
            · exact Or.inr h

theorem getLastD_splitOnChar_beq (s t : Str) (ht : t.contains '.' = false) :
    ((splitOnChar '.' s).getLastD [] == t)
      = (('.' :: t).isSuffixOf s || s == t) := by
  rw [Bool.eq_iff_iff]
  simp only [beq_iff_eq, Bool.or_eq_true, List.isSuffixOf_iff_suffix]
  rw [getLastD_splitOnChar_eq_iff t ht s]
  tauto

/-- Claim C7 counterexample to exact-extension matching: the bare file name
properties, which has no dot and hence no extension, is accepted by
canParse because split-pop on a dotless name returns the whole name. -/
theorem c7_canParse_counterexample :
    propertiesCanParse ("properties".toList) = true ∧
    propertiesCanParseSpec ("properties".toList) = false := by
  constructor
  · decide
  · decide

/-- Claim C7 amended file-matching rule: canParse accepts exactly the names carrying
one of the three extensions case-insensitively, plus the dotless names that
are themselves one of the three tokens case-insensitively. -/
theorem c7_canParse_amended (name : Str) :
    propertiesCanParse name =
      (propertiesCanParseSpec name || lowerStr name == "properties".toList ||
        lowerStr name == "ini".toList || lowerStr name == "conf".toList) := by
  simp only [propertiesCanParse, propertiesCanParseSpec]
  rw [getLastD_splitOnChar_beq (lowerStr name) ("properties".toList) (by decide),
    getLastD_splitOnChar_beq (lowerStr name) ("ini".toList) (by decide),
    getLastD_splitOnChar_beq (lowerStr name) ("conf".toList) (by decide)]
  rw [Bool.eq_iff_iff]
  simp only [Bool.or_eq_true, endsWithStr]
  constructor
  · intro h
    tauto
  · intro h
    tauto

/-- Claim C8, per-call section state: parse run on an instance holding any leftover
currentSection returns the same list as parse on a fresh instance with the
same options, because the field is assigned the empty string at the start
of every call. -/
theorem c8_section_reset (opts : ParserOptions) (sect content : Str) :
    (propertiesParseSt { options := opts, currentSection := sect } content).1 =
      propertiesParse opts content := rfl

theorem propsLoop_isNested_false (opts : ParserOptions) (content : Str) :
    ∀ lines ci sect v, v ∈ (propsLoop opts content lines ci sect).1 →
      v.isNested = false := by
  intro lines
  induction lines with
  | nil =>
    intro ci sect v hv
    simp [propsLoop] at hv
  | cons line rest ih =>
    intro ci sect v hv
    rw [propsLoop] at hv
    split at hv
    · exact ih _ _ v hv
    · split at hv
      · simp only [List.mem_append] at hv
        rcases hv with hv | hv
        · split at hv
          · split at hv
            · simp only [List.mem_singleton] at hv
              rw [hv]
              rfl
            · simp at hv
          · simp at hv
        · exact ih _ _ v hv
      · split at hv
        · simp only at hv
          split at hv
          · exact ih _ _ v hv
          · simp only [List.mem_cons] at hv
            rcases hv with hv | hv
            · rw [hv]
              rfl
            · exact ih _ _ v hv
        · exact ih _ _ v hv

theorem propertiesParse_isNested_false (opts : ParserOptions) (content : Str) :
    ∀ v ∈ propertiesParse opts content, v.isNested = false := by
  intro v hv
  exact propsLoop_isNested_false opts content _ _ _ v hv

theorem propertiesParse_nil (opts : ParserOptions) : propertiesParse opts [] = [] := by
  unfold propertiesParse propertiesParseSt
  cases h : opts.includeCommented
  · simp [propsLoop, splitNl, h, sectionHeaderInner, startsWithChar, isPureCommentProps,
      trimStr]
  · simp [propsLoop, splitNl, h, sectionHeaderInner, startsWithChar, isPureCommentProps,
      trimStr, propsCommentedMatch, trimStartLen]

/-!
Embedding of src/parsers/yaml-parser.ts.

parseLine's regex has the shared deterministic key-colon-group shape, so it
reuses keyValCore with the colon as the only separator and a star group.
-/

/-- getIndentation embeds YamlParser.getIndentation: the length of the
leading whitespace run after replacing each tab by two spaces. -/
def getIndentation (line : Str) : Nat :=
  ((line.takeWhile jsWs).map (fun c => if c = '\t' then 2 else 1)).sum

/-- yamlIsCommentLine embeds the comment test: optional leading whitespace
followed by a hash. -/
def yamlIsCommentLine (line : Str) : Bool :=
  match line.dropWhile jsWs with
  | '#' :: _ => true
  | _ => false

/-- stripCommentMarker embeds line.replace of the leading
whitespace-hash-whitespace run by the empty string (the replace leaves
non-matching lines unchanged; the parser only calls it on comment lines). -/
def stripCommentMarker (line : Str) : Str :=
  match line.dropWhile jsWs with
  | '#' :: t2 => t2.dropWhile jsWs
  | _ => line

/-- YamlLine is the result record of YamlParser.parseLine. -/
structure YamlLine where
  key : Str
  value : Str
  hasValue : Bool
  valueOffset : Int
deriving DecidableEq

/-- yamlParseLine embeds YamlParser.parseLine: reject list items, match the
key-colon-value regex on the trimmed line, trim and unquote the value, and
compute the offset of the first value character in the given line (the
published offset points past an opening quote when one is present). -/
def yamlParseLine (lc : Str) : Option YamlLine :=
  let trimmed := trimStr lc
  match trimmed with
  | [] => none
  | c :: _ =>
    if c = '-' then none
    else
      match keyValCore [':'] false trimmed with
      | none => none
      | some kg =>
        let value0 := trimStr kg.2
        let hasValue := !value0.isEmpty
        let value :=
          if (startsWithChar value0 '"' && endsWithChar value0 '"') ||
              (startsWithChar value0 '\'' && endsWithChar value0 '\'') then
            (value0.drop 1).dropLast
          else value0
        let colonIndex := jsIndexOfChar lc ':'
        let afterColon := lc.drop (clampToLen (colonIndex + 1) lc.length)
        let valueOffset := colonIndex + 1 + (trimStartLen afterColon : Int)
        let rawValue := trimStr (lc.drop (clampToLen valueOffset lc.length))
        let adjustedOffset :=
          if startsWithChar rawValue '"' || startsWithChar rawValue '\'' then
            jsIndexOfSub lc rawValue + 1
          else jsIndexOfSubFrom lc rawValue colonIndex
        some { key := kg.1, value := value, hasValue := hasValue,
               valueOffset := adjustedOffset }

/-- buildKeyPath embeds YamlParser.buildKeyPath. -/
def buildKeyPath (stack : List (Str × Nat)) (key : Str) : Str :=
  match stack with
  | [] => key
  | top :: _ => top.1 ++ '.' :: key

/-- yamlLoop embeds the line loop of YamlParser.parse.  The key stack is a
list with its top at the head, so the pop-while of the source is a
dropWhile; every branch advances the running character offset by the line
length plus one. -/
def yamlLoop (opts : ParserOptions) (content : Str) :
    List Str → List (Str × Nat) → Nat → List ParsedVariable
  | [], _, _ => []
  | line :: rest, stack, ci =>
    let nextCi := ci + line.length + 1
    let trimmed := trimStr line
    if trimmed.isEmpty || trimmed == "---".toList || trimmed == "...".toList then
      yamlLoop opts content rest stack nextCi
    else
      let isCommented := yamlIsCommentLine line
      if isCommented && !opts.includeCommented then
        yamlLoop opts content rest stack nextCi
      else
        let indent := getIndentation line
        let stack1 := stack.dropWhile (fun e => indent ≤ e.2)
        let lc := if isCommented then stripCommentMarker line else line
        match yamlParseLine lc with
        | none => yamlLoop opts content rest stack1 nextCi
        | some r =>
          let fullKey := buildKeyPath stack1 r.key
          if opts.maxNestedDepth < stack1.length + 1 then
            yamlLoop opts content rest stack1 nextCi
          else if r.hasValue then
            let actualValueOffset : Int :=
              if isCommented then
                jsIndexOfSubFrom line r.value (jsIndexOfChar line ':' + 1)
              else r.valueOffset
            let sI : Int := (ci : Int) + actualValueOffset
            let eI : Int := sI + (r.value.length : Int)
            createVariable fullKey r.value sI eI content (decide (0 < stack1.length))
                isCommented
              :: yamlLoop opts content rest stack1 nextCi
          else
            yamlLoop opts content rest ((fullKey, indent) :: stack1) nextCi

/-- yamlParse embeds YamlParser.parse. -/
def yamlParse (opts : ParserOptions) (content : Str) : List ParsedVariable :=
  yamlLoop opts content (splitNl content) [] 0

/-- yamlLineContentOf is the comment-stripped line the loop hands to
parseLine. -/
def yamlLineContentOf (line : Str) : Str :=
  if yamlIsCommentLine line then stripCommentMarker line else line

/-- yamlLineKeys lists the key token parseLine extracts from each line of
the input, the tokens the depth bound is stated over. -/
def yamlLineKeys (content : Str) : List Str :=
  (splitNl content).filterMap (fun l => (yamlParseLine (yamlLineContentOf l)).map (fun r => r.key))

/-- stackSegsOK is the loop invariant of the yaml key stack: every entry's
key has exactly one more segment than the number of entries below it. -/
def stackSegsOK : List (Str × Nat) → Prop
  | [] => True
  | e :: rest => segments e.1 = rest.length + 1 ∧ stackSegsOK rest

theorem stackSegsOK_dropWhile (p : Str × Nat → Bool) :
    ∀ s, stackSegsOK s → stackSegsOK (s.dropWhile p) := by
  intro s
  induction s with
  | nil => intro h; exact h
  | cons e rest ih =>
    intro h
    rw [List.dropWhile_cons]
    by_cases hp : p e = true
    · rw [if_pos hp]
      exact ih h.2
    · rw [if_neg hp]
      exact h

theorem contains_dot_append (a b : Str) : (a ++ '.' :: b).contains '.' = true := by
  simp [List.contains_cons]

theorem segments_buildKeyPath (stack : List (Str × Nat)) (key : Str)
    (hk : key.contains '.' = false) (hs : stackSegsOK stack) :
    segments (buildKeyPath stack key) = stack.length + 1 := by
  cases stack with
  | nil =>
    rw [buildKeyPath]
    rw [segments_eq_one_of_not_contains key hk]
    rfl
  | cons top rest =>
    rw [buildKeyPath, segments_append_dot, hs.1,
      segments_eq_one_of_not_contains key hk]
    simp

theorem yamlLoop_depth_bound (opts : ParserOptions) (content : Str) :
    ∀ lines stack ci,
      stackSegsOK stack →
      (∀ l ∈ lines, ∀ r, yamlParseLine (yamlLineContentOf l) = some r →
        r.key.contains '.' = false) →
      ∀ v ∈ yamlLoop opts content lines stack ci,
        segments v.key ≤ opts.maxNestedDepth := by
  intro lines
  induction lines with
  | nil =>
    intro stack ci hs hk v hv
    simp [yamlLoop] at hv
  | cons line rest ih =>
    intro stack ci hs hk v hv
    have hkrest : ∀ l ∈ rest, ∀ r, yamlParseLine (yamlLineContentOf l) = some r →
        r.key.contains '.' = false :=
      fun l hl => hk l (List.mem_cons_of_mem line hl)
    have hs1 : stackSegsOK (stack.dropWhile (fun e => getIndentation line ≤ e.2)) :=
      stackSegsOK_dropWhile _ stack hs
    rw [yamlLoop] at hv
    simp only at hv
    split at hv
    · exact ih stack _ hs hkrest v hv
    · split at hv
      · exact ih stack _ hs hkrest v hv
      · split at hv
        · exact ih _ _ hs1 hkrest v hv
        · rename_i r heq
          have hkey : r.key.contains '.' = false :=
            hk line (List.mem_cons_self line rest) r heq
          split at hv
          · exact ih _ _ hs1 hkrest v hv
          · split at hv
            · simp only [List.mem_cons] at hv
              rcases hv with hv | hv
              · rw [hv]
                have hseg := segments_buildKeyPath
                  (stack.dropWhile (fun e => getIndentation line ≤ e.2)) r.key hkey hs1
                simp only [createVariable]
                rw [hseg]
                omega
              · exact ih _ _ hs1 hkrest v hv
            · refine ih _ _ ?_ hkrest v hv
              constructor
              · exact segments_buildKeyPath _ r.key hkey hs1
              · exact hs1

theorem yamlLoop_isNested_dot (opts : ParserOptions) (content : Str) :
    ∀ lines stack ci v, v ∈ yamlLoop opts content lines stack ci →
      v.isNested = true → v.key.contains '.' = true := by
  intro lines
  induction lines with
  | nil =>
    intro stack ci v hv
    simp [yamlLoop] at hv
  | cons line rest ih =>
    intro stack ci v hv
    rw [yamlLoop] at hv
    simp only at hv
    split at hv
    · exact ih stack _ v hv
    · split at hv
      · exact ih stack _ v hv
      · split at hv
        · exact ih _ _ v hv
        · split at hv
          · exact ih _ _ v hv
          · split at hv
            · simp only [List.mem_cons] at hv
              rcases hv with hv | hv
              · rw [hv]
                intro hn
                simp only [createVariable, decide_eq_true_eq] at hn ⊢
                cases hstk : stack.dropWhile (fun e => getIndentation line ≤ e.2) with
                | nil =>
                  rw [hstk] at hn
                  simp at hn
                | cons top rest2 =>
                  rw [buildKeyPath]
                  exact contains_dot_append top.1 _
              · exact ih _ _ v hv
            · exact ih _ _ v hv

theorem yamlParse_nil (opts : ParserOptions) : yamlParse opts [] = [] := rfl

/-!
Embedding of the TOML parser (TomlParser, file toml-parser.ts).

The key-value regex alternates a bare key of the shared class with a
double- or single-quoted key; the alternatives are tried in this order and
are mutually exclusive on their first character, and each is deterministic
as in the other parsers, so the match is embedded alternative by
alternative.  parseValue is a chain of early returns falling through to the
unquoted branch, embedded as an orElse chain with a default.
-/

/-- tomlArrayHeaderInner matches the array-of-tables header regex: a
double-bracketed nonempty body free of closing brackets spanning the whole
trimmed line. -/
def tomlArrayHeaderInner (trimmed : Str) : Option Str :=
  if ("[[".toList).isPrefixOf trimmed && ("]]".toList).isSuffixOf trimmed then
    let inner := ((trimmed.drop 2).dropLast).dropLast
    if inner.isEmpty || inner.contains ']' then none else some inner
  else none

/-- tomlAfterKey matches whitespace, the equals sign, whitespace and the
nonempty end-anchored group following a TOML key. -/
def tomlAfterKey (t : Str) : Option Str :=
  let w1 := trimStartLen t
  match t.drop w1 with
  | '=' :: t3 =>
    let w2 := trimStartLen t3
    let g2 := t3.drop w2
    if g2.isEmpty then
      match (t3.take w2).getLast? with
      | some wc => if jsLineTerm wc then none else some [wc]
      | none => none
    else if g2.any jsLineTerm then none
    else some g2
  | _ => none

/-- tomlKeyMatch embeds the key-value regex of TomlParser.parseKeyValue,
returning the raw first group (quotes included when present) and the value
group. -/
def tomlKeyMatch (lc : Str) : Option (Str × Str) :=
  let bare : Option (Str × Str) :=
    match lc with
    | c :: _ =>
      if isKeyStart c then
        let key := lc.takeWhile isKeyChar
        (tomlAfterKey (lc.drop key.length)).map (fun g2 => (key, g2))
      else none
    | [] => none
  let dquoted : Option (Str × Str) :=
    match lc with
    | '"' :: t1 =>
      let inner := t1.takeWhile (fun c => !(c == '"'))
      if inner.isEmpty then none
      else
        match t1.drop inner.length with
        | '"' :: t2 => (tomlAfterKey t2).map (fun g2 => ('"' :: (inner ++ ['"']), g2))
        | _ => none
    | _ => none
  let squoted : Option (Str × Str) :=
    match lc with
    | '\'' :: t1 =>
      let inner := t1.takeWhile (fun c => !(c == '\''))
      if inner.isEmpty then none
      else
        match t1.drop inner.length with
        | '\'' :: t2 => (tomlAfterKey t2).map (fun g2 => ('\'' :: (inner ++ ['\'']), g2))
        | _ => none
    | _ => none
  (bare.orElse (fun _ => dquoted)).orElse (fun _ => squoted)

/-- tomlParseValue embeds TomlParser.parseValue: basic string, literal
string, the two triple-quoted forms, and otherwise the raw value with an
inline comment stripped; the returned offset is the consumed quote width. -/
def tomlParseValue (rv : Str) : Str × Nat :=
  let tryBasic : Option (Str × Nat) :=
    if startsWithChar rv '"' && !(("\"\"\"".toList).isPrefixOf rv) then
      let e := jsIndexOfCharFrom rv '"' 1
      if e == -1 then none else some (jsSubstring rv 1 e, 1)
    else none
  let tryLiteral : Option (Str × Nat) :=
    if startsWithChar rv '\'' && !(("'''".toList).isPrefixOf rv) then
      let e := jsIndexOfCharFrom rv '\'' 1
      if e == -1 then none else some (jsSubstring rv 1 e, 1)
    else none
  let tryMLBasic : Option (Str × Nat) :=
    if ("\"\"\"".toList).isPrefixOf rv then
      let e := jsIndexOfSubFrom rv ("\"\"\"".toList) 3
      if e == -1 then none else some (jsSubstring rv 3 e, 3)
    else none
  let tryMLLiteral : Option (Str × Nat) :=
    if ("'''".toList).isPrefixOf rv then
      let e := jsIndexOfSubFrom rv ("'''".toList) 3
      if e == -1 then none else some (jsSubstring rv 3 e, 3)
    else none
  let dflt : Str × Nat :=
    let ci := jsIndexOfChar rv '#'
    if ci == -1 then (rv, 0) else (trimStr (jsSubstring rv 0 ci), 0)
  ((((tryBasic.orElse (fun _ => tryLiteral)).orElse (fun _ => tryMLBasic)).orElse
    (fun _ => tryMLLiteral)).getD dflt)

/-- tomlParseKV embeds TomlParser.parseKeyValue: match the key-value shape
on the comment-stripped trimmed line, unquote the key, parse the value, and
compute the span from the position of the equals sign in the original line
plus the quote width. -/
def tomlParseKV (lc line : Str) (lineStart : Nat) : Option (Str × Str × Int × Int) :=
  match tomlKeyMatch lc with
  | none => none
  | some kg =>
    let key :=
      if (startsWithChar kg.1 '"' && endsWithChar kg.1 '"') ||
          (startsWithChar kg.1 '\'' && endsWithChar kg.1 '\'') then
        (kg.1.drop 1).dropLast
      else kg.1
    let rawValue := trimStr kg.2
    let pv := tomlParseValue rawValue
    let equalsIndex := jsIndexOfChar line '='
    let afterEquals := line.drop (clampToLen (equalsIndex + 1) line.length)
    let valueOffset := equalsIndex + 1 + (trimStartLen afterEquals : Int)
    let sI := (lineStart : Int) + valueOffset + (pv.2 : Int)
    let eI := sI + (pv.1.length : Int)
    some (key, pv.1, sI, eI)

/-- tomlLoop embeds the line loop of TomlParser.parse, threading the
current section and the running character offset. -/
def tomlLoop (opts : ParserOptions) (content : Str) :
    List Str → Str → Nat → List ParsedVariable
  | [], _, _ => []
  | line :: rest, sect, ci =>
    let nextCi := ci + line.length + 1
    let trimmed := trimStr line
    if trimmed.isEmpty then tomlLoop opts content rest sect nextCi
    else
      let isCommented := startsWithChar trimmed '#'
      if isCommented && !opts.includeCommented then tomlLoop opts content rest sect nextCi
      else
        match sectionHeaderInner trimmed with
        | some sec => tomlLoop opts content rest sec nextCi
        | none =>
          match tomlArrayHeaderInner trimmed with
          | some sec => tomlLoop opts content rest sec nextCi
          | none =>
            let lc := if isCommented then (trimmed.drop 1).dropWhile jsWs else trimmed
            match tomlParseKV lc line ci with
            | none => tomlLoop opts content rest sect nextCi
            | some r =>
              let fullKey := if !sect.isEmpty then sect ++ '.' :: r.1 else r.1
              createVariable fullKey r.2.1 r.2.2.1 r.2.2.2 content
                  (decide (0 < sect.length) || r.1.contains '.') isCommented
                :: tomlLoop opts content rest sect nextCi

/-- tomlParse embeds TomlParser.parse. -/
def tomlParse (opts : ParserOptions) (content : Str) : List ParsedVariable :=
  tomlLoop opts content (splitNl content) [] 0

theorem tomlLoop_isNested_iff (opts : ParserOptions) (content : Str) :
    ∀ lines sect ci v, v ∈ tomlLoop opts content lines sect ci →
      (v.isNested = true ↔ v.key.contains '.' = true) := by
  intro lines
  induction lines with
  | nil =>
    intro sect ci v hv
    simp [tomlLoop] at hv
  | cons line rest ih =>
    intro sect ci v hv
    rw [tomlLoop] at hv
    simp only at hv
    split at hv
    · exact ih sect _ v hv
    · split at hv
      · exact ih sect _ v hv
      · split at hv
        · exact ih _ _ v hv
        · split at hv
          · exact ih _ _ v hv
          · split at hv
            · exact ih sect _ v hv
            · rename_i r heq
              simp only [List.mem_cons] at hv
              rcases hv with hv | hv
              · rw [hv]
                simp only [createVariable, Bool.or_eq_true, decide_eq_true_eq]
                by_cases hsec : sect.isEmpty = true
                · have hz : ¬0 < sect.length := by
                    rw [List.isEmpty_iff] at hsec
                    rw [hsec]
                    simp
                  rw [hsec]
                  simp only [Bool.not_true, Bool.false_eq_true, if_false]
                  constructor
                  · intro hn
                    rcases hn with hn | hn
                    · exact absurd hn hz
                    · exact hn
                  · intro hc
                    exact Or.inr hc
                · have hne : (!sect.isEmpty) = true := by
                    cases hb : sect.isEmpty
                    · rfl
                    · exact absurd hb hsec
                  have hpos : 0 < sect.length := by
                    cases sect with
                    | nil => exact absurd rfl hsec
                    | cons a s2 => simp
                  rw [hne]
                  simp only [if_true]
                  constructor
                  · intro hn
                    exact contains_dot_append sect r.1
                  · intro hc
                    exact Or.inl hpos
              · exact ih sect _ v hv

theorem one_lt_segments_iff_contains (k : Str) :
    1 < segments k ↔ k.contains '.' = true := by
  constructor
  · intro h
    cases hb : k.contains '.'
    · rw [segments_eq_one_of_not_contains k hb] at h
      omega
    · rfl
  · exact one_lt_segments_of_contains k

theorem tomlParse_nil (opts : ParserOptions) : tomlParse opts [] = [] := rfl

/-!
Embedding of the JSON parser (JsonParser, second class of base-parser.ts).

JSON.parse is a platform function; it is modelled by an executable
recursive-descent decoder of the JSON grammar (objects, arrays, strings
with escapes, numbers, the three literals), with none modelling a thrown
SyntaxError.  Scalar payloads other than strings and booleans are not
retained, since extractVariables only distinguishes strings, non-null
objects (which in JavaScript include arrays, whose entries enumerate with
decimal index keys) and everything else.  Duplicate object keys keep the
first position and the last value, as in JavaScript.  The decoder's fuel is
decremented once per nested value or member, each of which consumes input,
so content length plus one never runs out.  A lone escaped surrogate decodes
through Char.ofNat's replacement; no claim depends on such payloads.
-/

/-- JsonValue models a decoded JavaScript JSON value. -/
inductive JsonValue where
  | str (s : Str)
  | num
  | bool (b : Bool)
  | null
  | arr (elems : List JsonValue)
  | obj (entries : List (Str × JsonValue))

/-- jsonWsChar is the JSON grammar's whitespace set. -/
def jsonWsChar (c : Char) : Bool :=
  c == ' ' || c == '\t' || c == '\n' || c == '\r'

/-- skipJsonWs drops leading JSON whitespace. -/
def skipJsonWs (s : Str) : Str :=
  s.dropWhile jsonWsChar

/-- hexVal decodes one hexadecimal digit. -/
def hexVal (c : Char) : Option Nat :=
  if c.isDigit then some (c.toNat - '0'.toNat)
  else if 'a' ≤ c ∧ c ≤ 'f' then some (c.toNat - 'a'.toNat + 10)
  else if 'A' ≤ c ∧ c ≤ 'F' then some (c.toNat - 'A'.toNat + 10)
  else none

/-- escChar decodes the single-character JSON escapes. -/
def escChar (c : Char) : Option Char :=
  if c = '"' then some '"'
  else if c = '\\' then some '\\'
  else if c = '/' then some '/'
  else if c = 'b' then some (Char.ofNat 8)
  else if c = 'f' then some (Char.ofNat 12)
  else if c = 'n' then some '\n'
  else if c = 'r' then some '\r'
  else if c = 't' then some '\t'
  else none

/-- parseJsonStringBody decodes a JSON string after its opening quote,
returning the decoded content and the rest after the closing quote;
unterminated strings, bad escapes and raw control characters fail. -/
def parseJsonStringBody : Str → Option (Str × Str)
  | [] => none
  | '"' :: rest => some ([], rest)
  | '\\' :: 'u' :: h1 :: h2 :: h3 :: h4 :: rest =>
    match hexVal h1, hexVal h2, hexVal h3, hexVal h4 with
    | some a, some b, some c, some d =>
      (parseJsonStringBody rest).map
        (fun p => (Char.ofNat (((a * 16 + b) * 16 + c) * 16 + d) :: p.1, p.2))
    | _, _, _, _ => none
  | '\\' :: e :: rest =>
    match escChar e with
    | some c => (parseJsonStringBody rest).map (fun p => (c :: p.1, p.2))
    | none => none
  | c :: rest =>
    if c.toNat < 32 then none
    else (parseJsonStringBody rest).map (fun p => (c :: p.1, p.2))

/-- parseJsonFracExp validates the optional fraction and exponent of a JSON
number, returning the rest. -/
def parseJsonFracExp (s : Str) : Option Str :=
  let afterFrac : Option Str :=
    match s with
    | '.' :: r =>
      let ds := r.takeWhile Char.isDigit
      if ds.isEmpty then none else some (r.drop ds.length)
    | _ => some s
  match afterFrac with
  | none => none
  | some s2 =>
    match s2 with
    | e :: r =>
      if e = 'e' || e = 'E' then
        let r2 := match r with
          | '+' :: rr => rr
          | '-' :: rr => rr
          | _ => r
        let ds := r2.takeWhile Char.isDigit
        if ds.isEmpty then none else some (r2.drop ds.length)
      else some s2
    | [] => some s2

/-- parseJsonNumber validates a JSON number at the head, returning the
rest. -/
def parseJsonNumber (s : Str) : Option Str :=
  let s1 := match s with
    | '-' :: r => r
    | _ => s
  match s1 with
  | c :: _ =>
    if c = '0' then parseJsonFracExp (s1.drop 1)
    else if c.isDigit then parseJsonFracExp (s1.dropWhile Char.isDigit)
    else none
  | [] => none

/-- insertJsonEntry models JavaScript object-literal key insertion: a
duplicate key keeps its first position and takes the last value. -/
def insertJsonEntry (es : List (Str × JsonValue)) (k : Str) (v : JsonValue) :
    List (Str × JsonValue) :=
  if es.any (fun e => e.1 == k) then
    es.map (fun e => if e.1 == k then (e.1, v) else e)
  else es ++ [(k, v)]

mutual

/-- parseJsonValue decodes one JSON value after optional whitespace. -/
def parseJsonValue : Nat → Str → Option (JsonValue × Str)
  | 0, _ => none
  | n + 1, s =>
    match skipJsonWs s with
    | [] => none
    | c :: rest =>
      if c = '"' then
        (parseJsonStringBody rest).map (fun p => (JsonValue.str p.1, p.2))
      else if c = lbraceChar then
        match skipJsonWs rest with
        | d :: r2 =>
          if d = rbraceChar then some (JsonValue.obj [], r2)
          else parseJsonMembers n (skipJsonWs rest) []
        | [] => none
      else if c = '[' then
        match skipJsonWs rest with
        | d :: r2 =>
          if d = ']' then some (JsonValue.arr [], r2)
          else parseJsonElems n (skipJsonWs rest) []
        | [] => none
      else if c = 't' then
        if ("rue".toList).isPrefixOf rest then some (JsonValue.bool true, rest.drop 3)
        else none
      else if c = 'f' then
        if ("alse".toList).isPrefixOf rest then some (JsonValue.bool false, rest.drop 4)
        else none
      else if c = 'n' then
        if ("ull".toList).isPrefixOf rest then some (JsonValue.null, rest.drop 3)
        else none
      else if c = '-' || c.isDigit then
        (parseJsonNumber (c :: rest)).map (fun r => (JsonValue.num, r))
      else none

/-- parseJsonMembers decodes the nonempty member list of an object,
accumulating entries with JavaScript insertion semantics. -/
def parseJsonMembers : Nat → Str → List (Str × JsonValue) → Option (JsonValue × Str)
  | 0, _, _ => none
  | n + 1, s, acc =>
    match skipJsonWs s with
    | '"' :: rest =>
      match parseJsonStringBody rest with
      | none => none
      | some (k, r1) =>
        match skipJsonWs r1 with
        | ':' :: r2 =>
          match parseJsonValue n r2 with
          | none => none
          | some (v, r3) =>
            let acc2 := insertJsonEntry acc k v
            match skipJsonWs r3 with
            | ',' :: r4 => parseJsonMembers n r4 acc2
            | c :: r4 => if c = rbraceChar then some (JsonValue.obj acc2, r4) else none
            | [] => none
        | _ => none
    | _ => none

/-- parseJsonElems decodes the nonempty element list of an array. -/
def parseJsonElems : Nat → Str → List JsonValue → Option (JsonValue × Str)
  | 0, _, _ => none
  | n + 1, s, acc =>
    match parseJsonValue n s with
    | none => none
    | some (v, r1) =>
      match skipJsonWs r1 with
      | ',' :: r2 => parseJsonElems n r2 (acc ++ [v])
      | c :: r2 => if c = ']' then some (JsonValue.arr (acc ++ [v]), r2) else none
      | [] => none

end

/-- JSON_parse models the platform JSON.parse: the decoded value when the
whole input is one JSON text, none for the thrown SyntaxError. -/
def JSON_parse (c : Str) : Option JsonValue :=
  match parseJsonValue (c.length + 1) c with
  | some (v, rest) => if (skipJsonWs rest).isEmpty then some v else none
  | none => none

/-- natToStrAux writes a natural number in decimal (fuel-bounded; the fuel
passed by natToStr always suffices). -/
def natToStrAux : Nat → Nat → Str
  | 0, _ => []
  | fuel + 1, n =>
    if n < 10 then [Nat.digitChar n]
    else natToStrAux fuel (n / 10) ++ [Nat.digitChar (n % 10)]

/-- natToStr models the JavaScript decimal stringification of the array
indices Object.entries produces. -/
def natToStr (n : Nat) : Str :=
  natToStrAux (n + 1) n

/-- jsObjEntries models Object.entries on a decoded value that passed the
non-null object test: entries for objects, decimal-indexed entries for
arrays, nothing otherwise. -/
def jsObjEntries : JsonValue → Option (List (Str × JsonValue))
  | JsonValue.obj es => some es
  | JsonValue.arr xs => some ((xs.enum).map (fun p => (natToStr p.1, p.2)))
  | _ => none

/-- kvMatchAt matches the findValuePosition regex at one offset: a quoted
key literal, whitespace, a colon, whitespace and the quoted value literal
(key and value are regex-escaped in the source, so they match literally);
the result is the full match length. -/
def kvMatchAt (t : Str) (key value : Str) : Option Nat :=
  match t with
  | '"' :: t1 =>
    if key.isPrefixOf t1 then
      match t1.drop key.length with
      | '"' :: t2 =>
        let w1 := trimStartLen t2
        match t2.drop w1 with
        | ':' :: t3 =>
          let w2 := trimStartLen t3
          match t3.drop w2 with
          | '"' :: t4 =>
            if value.isPrefixOf t4 then
              match t4.drop value.length with
              | '"' :: _ =>
                some (1 + key.length + 1 + w1 + 1 + w2 + 1 + value.length + 1)
              | _ => none
            else none
          | _ => none
        | _ => none
      | _ => none
    else none
  | _ => none

/-- kvScan finds the leftmost match of the findValuePosition regex. -/
def kvScan (content key value : Str) : Nat → Nat → Option (Nat × Nat)
  | 0, _ => none
  | fuel + 1, pos =>
    if pos > content.length then none
    else
      match kvMatchAt (content.drop pos) key value with
      | some len => some (pos, len)
      | none => kvScan content key value fuel (pos + 1)

/-- findValuePosition embeds JsonParser.findValuePosition, including the
source's indexOf arithmetic over the matched text. -/
def findValuePosition (content key value : Str) : Option (Int × Int) :=
  match kvScan content key value (content.length + 1) 0 with
  | none => none
  | some r =>
    let m0 := (content.drop r.1).take r.2
    let colonIndex := jsIndexOfChar m0 ':'
    let vq := jsIndexOfCharFrom m0 '"' (colonIndex + 1)
    let sI : Int := (r.1 : Int) + vq + 1
    some (sI, sI + (value.length : Int))

/-- extractF embeds JsonParser.extractVariables.  The fuel only bounds the
recursion depth, which the decoded value's structure bounds by the content
length, so the top-level call never truncates. -/
def extractF (opts : ParserOptions) (content : Str) :
    Nat → JsonValue → Str → Nat → List ParsedVariable
  | 0, _, _, _ => []
  | n + 1, j, keyPrefix, depth =>
    if opts.maxNestedDepth < depth then []
    else
      match jsObjEntries j with
      | none => []
      | some entries =>
        entries.flatMap (fun e =>
          let fullKey := if keyPrefix.isEmpty then e.1 else keyPrefix ++ '.' :: e.1
          match e.2 with
          | JsonValue.str sv =>
            match findValuePosition content e.1 sv with
            | some p =>
              [createVariable fullKey sv p.1 p.2 content (decide (0 < depth)) false]
            | none => []
          | JsonValue.obj es2 => extractF opts content n (JsonValue.obj es2) fullKey (depth + 1)
          | JsonValue.arr xs => extractF opts content n (JsonValue.arr xs) fullKey (depth + 1)
          | _ => [])

/-- simpleKVAt matches the fallback regex at one offset: quoted nonempty
key, whitespace, colon, whitespace, quoted possibly-empty value. -/
def simpleKVAt (t : Str) : Option (Str × Str × Nat) :=
  match t with
  | '"' :: t1 =>
    let key := t1.takeWhile (fun c => !(c == '"'))
    if key.isEmpty then none
    else
      match t1.drop key.length with
      | '"' :: t2 =>
        let w1 := trimStartLen t2
        match t2.drop w1 with
        | ':' :: t3 =>
          let w2 := trimStartLen t3
          match t3.drop w2 with
          | '"' :: t4 =>
            let value := t4.takeWhile (fun c => !(c == '"'))
            match t4.drop value.length with
            | '"' :: _ =>
              some (key, value, 1 + key.length + 1 + w1 + 1 + w2 + 1 + value.length + 1)
            | _ => none
          | _ => none
        | _ => none
      | _ => none
  | _ => none

/-- simpleKVScan finds the leftmost fallback-regex match at or after pos. -/
def simpleKVScan (content : Str) : Nat → Nat → Option (Nat × Str × Str × Nat)
  | 0, _ => none
  | fuel + 1, pos =>
    if pos > content.length then none
    else
      match simpleKVAt (content.drop pos) with
      | some r => some (pos, r)
      | none => simpleKVScan content fuel (pos + 1)

/-- jsonFallbackLoop embeds the exec loop of JsonParser.parseWithRegex. -/
def jsonFallbackLoop (content : Str) : Nat → Nat → List ParsedVariable
  | 0, _ => []
  | fuel + 1, pos =>
    match simpleKVScan content (content.length + 1) pos with
    | none => []
    | some m =>
      let i := m.1
      let key := m.2.1
      let value := m.2.2.1
      let len := m.2.2.2
      let m0 := (content.drop i).take len
      let colonIndex := jsIndexOfChar m0 ':'
      let vq := jsIndexOfCharFrom m0 '"' (colonIndex + 1)
      let sI : Int := (i : Int) + vq + 1
      let eI : Int := sI + (value.length : Int)
      createVariable key value sI eI content false false
        :: jsonFallbackLoop content fuel (i + len)

/-- jsonParseWithRegex embeds JsonParser.parseWithRegex. -/
def jsonParseWithRegex (content : Str) : List ParsedVariable :=
  jsonFallbackLoop content (content.length + 1) 0

/-- jsonParseE embeds JsonParser.parse in an exception-explicit form: the
decode failure (the SyntaxError JSON.parse throws) is caught by the source's
try/catch and turned into the regex fallback, so both branches are ok and
no error escapes; without the catch the none branch would be an error. -/
def jsonParseE (opts : ParserOptions) (content : Str) : Except Unit (List ParsedVariable) :=
  match JSON_parse content with
  | some j => Except.ok (extractF opts content (content.length + 1) j [] 0)
  | none => Except.ok (jsonParseWithRegex content)

/-- jsonParse is jsonParseE with the (unreachable) error collapsed. -/
def jsonParse (opts : ParserOptions) (content : Str) : List ParsedVariable :=
  match jsonParseE opts content with
  | Except.ok vs => vs
  | Except.error _ => []

/-- jsonKeysDotFreeF says no object key in the decoded value contains a
dot, to the given structural depth. -/
def jsonKeysDotFreeF : Nat → JsonValue → Bool
  | 0, _ => true
  | n + 1, JsonValue.obj es => es.all (fun e => !e.1.contains '.' && jsonKeysDotFreeF n e.2)
  | n + 1, JsonValue.arr xs => xs.all (fun x => jsonKeysDotFreeF n x)
  | _ + 1, _ => true

/-- jsonKeysNonemptyF says no object key in the decoded value is the empty
string, to the given structural depth. -/
def jsonKeysNonemptyF : Nat → JsonValue → Bool
  | 0, _ => true
  | n + 1, JsonValue.obj es => es.all (fun e => !e.1.isEmpty && jsonKeysNonemptyF n e.2)
  | n + 1, JsonValue.arr xs => xs.all (fun x => jsonKeysNonemptyF n x)
  | _ + 1, _ => true

theorem digitChar_ne_dot (m : Nat) (h : m < 10) : ¬Nat.digitChar m = '.' := by
  interval_cases m <;> decide

theorem natToStrAux_contains_dot_false : ∀ fuel n, (natToStrAux fuel n).contains '.' = false := by
  intro fuel
  induction fuel with
  | zero => intro n; rfl
  | succ f ih =>
    intro n
    rw [natToStrAux]
    by_cases h : n < 10
    · rw [if_pos h]
      rw [List.contains_eq_any_beq]
      simp only [List.any_cons, List.any_nil, Bool.or_false]
      rw [beq_eq_false_iff_ne]
      exact fun hh => digitChar_ne_dot n h hh.symm
    · rw [if_neg h]
      rw [List.contains_eq_any_beq, List.any_append, ← List.contains_eq_any_beq, ih (n / 10)]
      simp only [List.any_cons, List.any_nil, Bool.or_false, Bool.false_or]
      rw [beq_eq_false_iff_ne]
      have hm : n % 10 < 10 := Nat.mod_lt n (by omega)
      exact fun hh => digitChar_ne_dot (n % 10) hm hh.symm

theorem natToStr_contains_dot_false (n : Nat) : (natToStr n).contains '.' = false :=
  natToStrAux_contains_dot_false (n + 1) n

theorem natToStr_ne_nil (n : Nat) : natToStr n ≠ [] := by
  unfold natToStr
  rw [natToStrAux]
  by_cases h : n < 10
  · rw [if_pos h]
    simp
  · rw [if_neg h]
    simp

theorem jsObjEntries_dotfree (m : Nat) (j : JsonValue) (entries : List (Str × JsonValue))
    (he : jsObjEntries j = some entries) (hdf : jsonKeysDotFreeF (m + 1) j = true) :
    ∀ e ∈ entries, e.1.contains '.' = false ∧ jsonKeysDotFreeF m e.2 = true := by
  intro e hmem
  cases j with
  | str s => simp [jsObjEntries] at he
  | num => simp [jsObjEntries] at he
  | bool b => simp [jsObjEntries] at he
  | null => simp [jsObjEntries] at he
  | obj es =>
    simp only [jsObjEntries] at he
    injection he with he1
    subst he1
    simp only [jsonKeysDotFreeF, List.all_eq_true] at hdf
    have hp := hdf e hmem
    rw [Bool.and_eq_true] at hp
    refine ⟨?_, hp.2⟩
    cases hb : e.1.contains '.'
    · rfl
    · rw [hb] at hp
      cases hp.1
  | arr xs =>
    simp only [jsObjEntries] at he
    injection he with he1
    subst he1
    rw [List.mem_map] at hmem
    obtain ⟨p, hp, hfe⟩ := hmem
    have hx : p.2 ∈ xs := by
      rw [List.mem_enum_iff_getElem?] at hp
      exact List.getElem?_mem hp
    simp only [jsonKeysDotFreeF, List.all_eq_true] at hdf
    rw [← hfe]
    exact ⟨natToStr_contains_dot_false p.1, hdf p.2 hx⟩

theorem jsObjEntries_nonempty (m : Nat) (j : JsonValue) (entries : List (Str × JsonValue))
    (he : jsObjEntries j = some entries) (hne : jsonKeysNonemptyF (m + 1) j = true) :
    ∀ e ∈ entries, e.1 ≠ [] ∧ jsonKeysNonemptyF m e.2 = true := by
  intro e hmem
  cases j with
  | str s => simp [jsObjEntries] at he
  | num => simp [jsObjEntries] at he
  | bool b => simp [jsObjEntries] at he
  | null => simp [jsObjEntries] at he
  | obj es =>
    simp only [jsObjEntries] at he
    injection he with he1
    subst he1
    simp only [jsonKeysNonemptyF, List.all_eq_true] at hne
    have hp := hne e hmem
    rw [Bool.and_eq_true] at hp
    refine ⟨?_, hp.2⟩
    intro hnil
    rw [hnil] at hp
    cases hp.1
  | arr xs =>
    simp only [jsObjEntries] at he
    injection he with he1
    subst he1
    rw [List.mem_map] at hmem
    obtain ⟨p, hp, hfe⟩ := hmem
    have hx : p.2 ∈ xs := by
      rw [List.mem_enum_iff_getElem?] at hp
      exact List.getElem?_mem hp
    simp only [jsonKeysNonemptyF, List.all_eq_true] at hne
    rw [← hfe]
    exact ⟨natToStr_ne_nil p.1, hne p.2 hx⟩

theorem segments_fullKey_le (kp k : Str) (d : Nat)
    (hk : k.contains '.' = false)
    (hinv : kp = [] ∨ segments kp ≤ d) :
    segments (if kp.isEmpty then k else kp ++ '.' :: k) ≤ d + 1 := by
  by_cases hkp : kp.isEmpty = true
  · rw [if_pos hkp, segments_eq_one_of_not_contains k hk]
    omega
  · rw [if_neg hkp, segments_append_dot, segments_eq_one_of_not_contains k hk]
    rcases hinv with h | h
    · rw [h] at hkp
      simp at hkp
    · omega

theorem fullKey_inv (kp k : Str) (d : Nat)
    (hk : k.contains '.' = false)
    (hinv : kp = [] ∨ segments kp ≤ d) :
    (if kp.isEmpty then k else kp ++ '.' :: k) = [] ∨
      segments (if kp.isEmpty then k else kp ++ '.' :: k) ≤ d + 1 := by
  by_cases h0 : (if kp.isEmpty then k else kp ++ '.' :: k) = []
  · exact Or.inl h0
  · exact Or.inr (segments_fullKey_le kp k d hk hinv)

theorem fullKey_ne_nil (kp k : Str) (hkne : k ≠ []) :
    (if kp.isEmpty then k else kp ++ '.' :: k) ≠ [] := by
  by_cases hkp : kp.isEmpty = true
  · rw [if_pos hkp]
    exact hkne
  · rw [if_neg hkp]
    simp

theorem fullKey_contains_dot (kp k : Str) (hkp : kp ≠ []) :
    (if kp.isEmpty then k else kp ++ '.' :: k).contains '.' = true := by
  have hne : kp.isEmpty ≠ true := by
    cases kp with
    | nil => exact absurd rfl hkp
    | cons a r => simp
  rw [if_neg hne]
  exact contains_dot_append kp k

theorem extractF_depth_bound (opts : ParserOptions) (content : Str) :
    ∀ n j keyPrefix depth,
      jsonKeysDotFreeF n j = true →
      (keyPrefix = [] ∨ segments keyPrefix ≤ depth) →
      ∀ v ∈ extractF opts content n j keyPrefix depth,
        segments v.key ≤ opts.maxNestedDepth + 1 := by
  intro n
  induction n with
  | zero =>
    intro j kp d _ _ v hv
    simp [extractF] at hv
  | succ m ih =>
    intro j kp d hdf hinv v hv
    rw [extractF] at hv
    split at hv
    · simp at hv
    · rename_i hguard
      split at hv
      · simp at hv
      · rename_i entries he
        simp only [List.mem_flatMap] at hv
        obtain ⟨e, hemem, hv⟩ := hv
        obtain ⟨hkdf, hvdf⟩ := jsObjEntries_dotfree m j entries he hdf e hemem
        split at hv
        · split at hv
          · simp only [List.mem_singleton] at hv
            rw [hv]
            simp only [createVariable]
            have hb := segments_fullKey_le kp e.1 d hkdf hinv
            omega
          · simp at hv
        · refine ih _ _ _ ?_ ?_ v hv
          · rename_i es2 heq
            rw [← heq]
            exact hvdf
          · exact fullKey_inv kp e.1 d hkdf hinv
        · refine ih _ _ _ ?_ ?_ v hv
          · rename_i xs heq
            rw [← heq]
            exact hvdf
          · exact fullKey_inv kp e.1 d hkdf hinv
        · simp at hv

theorem extractF_isNested_dot (opts : ParserOptions) (content : Str) :
    ∀ n j keyPrefix depth,
      jsonKeysNonemptyF n j = true →
      (depth = 0 ∨ keyPrefix ≠ []) →
      ∀ v ∈ extractF opts content n j keyPrefix depth,
        v.isNested = true → v.key.contains '.' = true := by
  intro n
  induction n with
  | zero =>
    intro j kp d _ _ v hv
    simp [extractF] at hv
  | succ m ih =>
    intro j kp d hne hinv v hv
    rw [extractF] at hv
    split at hv
    · simp at hv
    · split at hv
      · simp at hv
      · rename_i entries he
        simp only [List.mem_flatMap] at hv
        obtain ⟨e, hemem, hv⟩ := hv
        obtain ⟨hkne, hvne⟩ := jsObjEntries_nonempty m j entries he hne e hemem
        split at hv
        · split at hv
          · simp only [List.mem_singleton] at hv
            rw [hv]
            intro hn
            simp only [createVariable, decide_eq_true_eq] at hn ⊢
            have hd : ¬d = 0 := by omega
            have hkp : kp ≠ [] := by
              rcases hinv with h | h
              · exact absurd h hd
              · exact h
            exact fullKey_contains_dot kp e.1 hkp
          · simp at hv
        · refine ih _ _ _ ?_ ?_ v hv
          · rename_i es2 heq
            rw [← heq]
            exact hvne
          · exact Or.inr (fullKey_ne_nil kp e.1 hkne)
        · refine ih _ _ _ ?_ ?_ v hv
          · rename_i xs heq
            rw [← heq]
            exact hvne
          · exact Or.inr (fullKey_ne_nil kp e.1 hkne)
        · simp at hv

theorem jsonFallbackLoop_isNested_false (content : Str) :
    ∀ fuel pos v, v ∈ jsonFallbackLoop content fuel pos → v.isNested = false := by
  intro fuel
  induction fuel with
  | zero =>
    intro pos v hv
    simp [jsonFallbackLoop] at hv
  | succ m ih =>
    intro pos v hv
    rw [jsonFallbackLoop] at hv
    split at hv
    · simp at hv
    · simp only [List.mem_cons] at hv
      rcases hv with hv | hv
      · rw [hv]
        rfl
      · exact ih _ v hv

theorem jsonParse_decode_none (opts : ParserOptions) (content : Str)
    (h : JSON_parse content = none) :
    jsonParseE opts content = Except.ok (jsonParseWithRegex content) := by
  unfold jsonParseE
  rw [h]

theorem jsonParse_of_decode_some (opts : ParserOptions) (content : Str) (j : JsonValue)
    (h : JSON_parse content = some j) :
    jsonParse opts content = extractF opts content (content.length + 1) j [] 0 := by
  unfold jsonParse jsonParseE
  rw [h]

theorem jsonParse_of_decode_none (opts : ParserOptions) (content : Str)
    (h : JSON_parse content = none) :
    jsonParse opts content = jsonParseWithRegex content := by
  unfold jsonParse jsonParseE
  rw [h]

theorem jsonParse_nil (opts : ParserOptions) : jsonParse opts [] = [] := rfl

/-- Claim C2 counterexample: with maxNestedDepth one, the JSON parser
returns the two-segment key a.b on a decoded nested object (the guard
compares the recursion depth, which lags the segment count by one), the
YAML parser returns the two-segment key a.b written as one dotted token,
and the JSON fallback on undecodable input returns a dotted key with no
depth limit at all. -/
theorem c2_depth_counterexample :
    ((jsonParse { maxNestedDepth := 1, includeCommented := true }
        ("\x7b\"a\":\x7b\"b\":\"c\"\x7d\x7d".toList)).map (fun v => v.key) =
      ["a.b".toList]) ∧
    ((yamlParse { maxNestedDepth := 1, includeCommented := true }
        ("a.b: v".toList)).map (fun v => v.key) = ["a.b".toList]) ∧
    ((jsonParse { maxNestedDepth := 1, includeCommented := true }
        ("\"a.b\": \"x\"".toList)).map (fun v => v.key) = ["a.b".toList]) ∧
    1 < segments ("a.b".toList) := by
  refine ⟨rfl, rfl, rfl, ?_⟩
  decide

/-- Claim C2 amended: when no parsed key token contains a literal dot, the
indentation-structured parser returns keys of at most maxNestedDepth
segments; and when the full decode succeeds with dot-free object keys, the
structured-object parser returns keys of at most maxNestedDepth plus one
segments (its depth guard is off by one against the claim, and its regex
fallback applies no depth limit). -/
theorem c2_depth_amended :
    (∀ (opts : ParserOptions) (content : Str),
      (∀ k ∈ yamlLineKeys content, k.contains '.' = false) →
      ∀ v ∈ yamlParse opts content, segments v.key ≤ opts.maxNestedDepth) ∧
    (∀ (opts : ParserOptions) (content : Str) (j : JsonValue),
      JSON_parse content = some j →
      jsonKeysDotFreeF (content.length + 1) j = true →
      ∀ v ∈ jsonParse opts content, segments v.key ≤ opts.maxNestedDepth + 1) := by
  constructor
  · intro opts content hkeys v hv
    refine yamlLoop_depth_bound opts content (splitNl content) [] 0 trivial ?_ v hv
    intro l hl r hr
    have hmem : r.key ∈ yamlLineKeys content := by
      unfold yamlLineKeys
      rw [List.mem_filterMap]
      exact ⟨l, hl, by rw [hr]; rfl⟩
    exact hkeys _ hmem
  · intro opts content j hdec hdf v hv
    rw [jsonParse_of_decode_some opts content j hdec] at hv
    exact extractF_depth_bound opts content _ j [] 0 hdf (Or.inl rfl) v hv

/-- Witness for the amended depth bound at concrete inputs of both
parsers. -/
theorem c2_depth_amended_witness :
    segments ("db.host".toList) ≤ 2 ∧ segments ("a.b".toList) ≤ 2 :=
  ⟨c2_depth_amended.1 { maxNestedDepth := 2, includeCommented := true }
      ("db:\n  host: x".toList) (by decide)
      { key := "db.host".toList, value := "x".toList, startIndex := 12, endIndex := 13,
        lineNumber := 1, isNested := true, isCommented := false }
      (by decide),
    c2_depth_amended.2 { maxNestedDepth := 1, includeCommented := true }
      ("\x7b\"a\":\x7b\"b\":\"c\"\x7d\x7d".toList)
      (JsonValue.obj [("a".toList, JsonValue.obj [("b".toList, JsonValue.str ("c".toList))])])
      rfl (by decide)
      { key := "a.b".toList, value := "c".toList, startIndex := 11, endIndex := 12,
        lineNumber := 0, isNested := true, isCommented := false }
      (by decide)⟩

/-- Claim C3: no parser raises for any input.  In this embedding the only
throwing platform operation is JSON.parse, whose failure jsonParseE makes
explicit: both of its branches are ok, the failing branch being exactly the
regex fallback, and every parse function is total by construction, returning
the empty list already on the empty string. -/
theorem c3_totality :
    (∀ (opts : ParserOptions) (content : Str), ∃ vs, jsonParseE opts content = Except.ok vs) ∧
    (∀ (opts : ParserOptions) (content : Str), JSON_parse content = none →
      jsonParseE opts content = Except.ok (jsonParseWithRegex content)) ∧
    (∀ opts : ParserOptions,
      envParse opts [] = [] ∧ jsonParse opts [] = [] ∧ yamlParse opts [] = [] ∧
      propertiesParse opts [] = [] ∧ tomlParse opts [] = []) := by
  refine ⟨?_, jsonParse_decode_none, ?_⟩
  · intro opts content
    unfold jsonParseE
    cases JSON_parse content
    · exact ⟨_, rfl⟩
    · exact ⟨_, rfl⟩
  · intro opts
    exact ⟨envParse_nil opts, jsonParse_nil opts, yamlParse_nil opts,
      propertiesParse_nil opts, tomlParse_nil opts⟩

/-- Witness: the unterminated object of Scenario E decodes to a SyntaxError
and the parser recovers through the fallback. -/
theorem c3_totality_witness :
    jsonParseE DEFAULT_PARSER_OPTIONS ("\x7b\"key\": \"value\"".toList) =
      Except.ok (jsonParseWithRegex ("\x7b\"key\": \"value\"".toList)) :=
  c3_totality.2.1 DEFAULT_PARSER_OPTIONS ("\x7b\"key\": \"value\"".toList) rfl

/-- Claim C6 counterexample: the properties parser returns the two-segment
key a.b with isNested false (it passes false unconditionally), and the JSON
parser on an object whose outer key is the empty string returns the
one-segment key x with isNested true (depth is positive but the empty
prefix is dropped when joining). -/
theorem c6_isNested_counterexample :
    (propertiesParse DEFAULT_PARSER_OPTIONS ("a.b=c".toList) =
      [{ key := "a.b".toList, value := "c".toList, startIndex := 4, endIndex := 5,
         lineNumber := 0, isNested := false, isCommented := false }]) ∧
    1 < segments ("a.b".toList) ∧
    (jsonParse DEFAULT_PARSER_OPTIONS ("\x7b\"\":\x7b\"x\":\"y\"\x7d\x7d".toList) =
      [{ key := "x".toList, value := "y".toList, startIndex := 10, endIndex := 11,
         lineNumber := 0, isNested := true, isCommented := false }]) ∧
    segments ("x".toList) = 1 := by
  refine ⟨rfl, ?_, rfl, ?_⟩
  · decide
  · decide

/-- Claim C6 amended: the env and properties parsers and the JSON regex
fallback always report isNested false; the TOML parser marks a variable
nested exactly when its key has more than one dot-separated segment; the
YAML parser marks one nested only when its key has more than one segment;
and the JSON full-decode path does so as well provided every decoded object
key is nonempty. -/
theorem c6_isNested_amended :
    (∀ (opts : ParserOptions) (content : Str), ∀ v ∈ envParse opts content,
      v.isNested = false) ∧
    (∀ (opts : ParserOptions) (content : Str), ∀ v ∈ propertiesParse opts content,
      v.isNested = false) ∧
    (∀ (opts : ParserOptions) (content : Str), ∀ v ∈ yamlParse opts content,
      v.isNested = true → 1 < segments v.key) ∧
    (∀ (opts : ParserOptions) (content : Str), ∀ v ∈ tomlParse opts content,
      (v.isNested = true ↔ 1 < segments v.key)) ∧
    (∀ (opts : ParserOptions) (content : Str) (j : JsonValue),
      JSON_parse content = some j →
      jsonKeysNonemptyF (content.length + 1) j = true →
      ∀ v ∈ jsonParse opts content, v.isNested = true → 1 < segments v.key) ∧
    (∀ (opts : ParserOptions) (content : Str), JSON_parse content = none →
      ∀ v ∈ jsonParse opts content, v.isNested = false) := by
  refine ⟨envParse_isNested_false, propertiesParse_isNested_false, ?_, ?_, ?_, ?_⟩
  · intro opts content v hv hn
    exact one_lt_segments_of_contains v.key
      (yamlLoop_isNested_dot opts content (splitNl content) [] 0 v hv hn)
  · intro opts content v hv
    exact (tomlLoop_isNested_iff opts content (splitNl content) [] 0 v hv).trans
      (one_lt_segments_iff_contains v.key).symm
  · intro opts content j hdec hne v hv hn
    rw [jsonParse_of_decode_some opts content j hdec] at hv
    exact one_lt_segments_of_contains v.key
      (extractF_isNested_dot opts content _ j [] 0 hne (Or.inl rfl) v hv hn)
  · intro opts content hdec v hv
    rw [jsonParse_of_decode_none opts content hdec] at hv
    exact jsonFallbackLoop_isNested_false content _ _ v hv

/-- Witness for the amended isNested rule at concrete inputs of four
parsers. -/
theorem c6_isNested_amended_witness :
    ({ key := "API_KEY".toList, value := "secret123".toList, startIndex := 8, endIndex := 17,
        lineNumber := 0, isNested := false, isCommented := false : ParsedVariable }.isNested
      = false) ∧
    1 < segments ("db.host".toList) ∧
    1 < segments ("database.host".toList) ∧
    1 < segments ("a.b".toList) :=
  ⟨c6_isNested_amended.1 DEFAULT_PARSER_OPTIONS
      ("API_KEY=secret123\nDB_HOST=localhost".toList)
      { key := "API_KEY".toList, value := "secret123".toList, startIndex := 8, endIndex := 17,
        lineNumber := 0, isNested := false, isCommented := false }
      (by decide),
    c6_isNested_amended.2.2.1 { maxNestedDepth := 2, includeCommented := true }
      ("db:\n  host: x".toList)
      { key := "db.host".toList, value := "x".toList, startIndex := 12, endIndex := 13,
        lineNumber := 1, isNested := true, isCommented := false }
      (by decide) rfl,
    (c6_isNested_amended.2.2.2.1 DEFAULT_PARSER_OPTIONS
      ("[database]\nhost = \"localhost\"".toList)
      { key := "database.host".toList, value := "localhost".toList, startIndex := 19,
        endIndex := 28, lineNumber := 1, isNested := true, isCommented := false }
      (by decide)).mp rfl,
    c6_isNested_amended.2.2.2.2.1 DEFAULT_PARSER_OPTIONS
      ("\x7b\"a\":\x7b\"b\":\"c\"\x7d\x7d".toList)
      (JsonValue.obj [("a".toList, JsonValue.obj [("b".toList, JsonValue.str ("c".toList))])])
      rfl (by decide)
      { key := "a.b".toList, value := "c".toList, startIndex := 11, endIndex := 12,
        lineNumber := 0, isNested := true, isCommented := false }
      (by decide) rfl⟩

end Camouflage
